import Mathlib

/-!
Verification of the ring-reconstruction core of `osmtools` (`src/geom.rs`,
with the older variant in `src/geojson.rs` and the batch driver around them).

Coordinates are modelled as exact rationals: `Position` in the source is a
pair of `OrderedFloat<f64>` compared by exact equality, and all the
properties verified here are about exact comparison, list manipulation and
exact signed-area arithmetic, which ℚ embeds faithfully.
-/

/-- `Position` from `geom.rs`: an exact 2D coordinate used as an equality key. -/
structure Position where
  x : ℚ
  y : ℚ
deriving DecidableEq, Repr, Inhabited

/-- Errors of the geometry core.  The source uses `anyhow` string errors; the
constructors here correspond one-to-one to the `bail!` sites in
`create_continuous_linering` and `Line::extend`. -/
inductive GeomError where
  | noLinestrings
  | noMatchingSegment
  | nonContinuousPath
  | unclosedRing
deriving DecidableEq, Repr

/-- `Line` from `geom.rs`: an ordered sequence of at least two positions
(the `TryFrom<Vec<Position>>` impl rejects shorter inputs, and every `Line`
in the program is built through it). -/
structure Line where
  pts : List Position
  two_le : 2 ≤ pts.length

instance : DecidableEq Line := fun a b =>
  decidable_of_iff (a.pts = b.pts) (by cases a; cases b; simp)

instance : Inhabited Line := ⟨⟨[default, default], by simp⟩⟩

/-- `Line::start`: the first position (the line is nonempty by invariant). -/
def Line.start (l : Line) : Position := l.pts.headI

/-- `Line::end` (`end` is reserved in Lean): the last position. -/
def Line.endPos (l : Line) : Position := l.pts.getLastD default

def Line.reverse (l : Line) : Line :=
  ⟨l.pts.reverse, by simpa using l.two_le⟩

/-- `Line::extend` from `geom.rs`: splice `t` onto the end of `l`, forwards
if `t` starts at `l`'s end, reversed if `t` ends there, otherwise fail. -/
def Line.extend (l : Line) (t : Line) : Except GeomError Line :=
  if t.start = l.endPos then
    .ok ⟨l.pts ++ t.pts.drop 1, by
      have h := l.two_le; simp only [List.length_append]; omega⟩
  else if t.endPos = l.endPos then
    .ok ⟨l.pts ++ t.pts.reverse.drop 1, by
      have h := l.two_le; simp only [List.length_append]; omega⟩
  else
    .error .nonContinuousPath

/-- Insertion into a `BTreeSet<usize>` modelled as a sorted duplicate-free
list: the set semantics of the buckets of `MultiMap`. -/
def bucketInsert : List ℕ → ℕ → List ℕ
  | [], v => [v]
  | x :: xs, v =>
    if v < x then v :: x :: xs
    else if v = x then x :: xs
    else x :: bucketInsert xs v

/-- `MultiMap<Position, usize>` from `geom.rs`: `HashMap<K, BTreeSet<V>>`,
modelled as an association list (one entry per key) of sorted buckets. -/
structure MultiMap where
  m : List (Position × List ℕ)
deriving Repr, Inhabited, DecidableEq

/-- `MultiMap::get`: the bucket of the key, then its smallest element. -/
def MultiMap.get (mm : MultiMap) (k : Position) : Option ℕ :=
  (mm.m.find? (fun kb => kb.1 == k)).bind (fun kb => kb.2.head?)

def insertAux : List (Position × List ℕ) → Position → ℕ → List (Position × List ℕ)
  | [], k, v => [(k, bucketInsert [] v)]
  | kb :: rest, k, v =>
    if kb.1 = k then (kb.1, bucketInsert kb.2 v) :: rest
    else kb :: insertAux rest k v

/-- `MultiMap::insert`: `entry(key).or_default().insert(value)`. -/
def MultiMap.insert (mm : MultiMap) (k : Position) (v : ℕ) : MultiMap :=
  ⟨insertAux mm.m k v⟩

/-- `MultiMap::is_empty`: no entries, or every bucket empty. -/
def MultiMap.is_empty (mm : MultiMap) : Bool :=
  mm.m.isEmpty || mm.m.all (fun kb => kb.2.isEmpty)

/-- `MultiMap::consume_one`: look the key up, and on a hit remove the found
value from every bucket of the map (global removal), returning it. -/
def MultiMap.consume_one (mm : MultiMap) (k : Position) : Option ℕ × MultiMap :=
  match mm.get k with
  | none => (none, mm)
  | some x => (some x, ⟨mm.m.map (fun kb => (kb.1, kb.2.filter (fun v => v != x)))⟩)

/-- Total number of value occurrences: the termination measure of the
assembly loop (each successful `consume_one` strictly shrinks it). -/
def MultiMap.totalCount (mm : MultiMap) : ℕ :=
  (mm.m.map (fun kb => kb.2.length)).sum

lemma length_filter_ne_lt {b : List ℕ} {x : ℕ} (hx : x ∈ b) :
    (b.filter (fun v => v != x)).length < b.length := by
  apply List.length_filter_lt_length_iff_exists.mpr
  exact ⟨x, hx, by simp⟩

lemma sum_filter_lt {x : ℕ} :
    ∀ (l : List (Position × List ℕ)) (kb0 : Position × List ℕ),
      kb0 ∈ l → x ∈ kb0.2 →
      (l.map (fun kb => (kb.2.filter (fun v => v != x)).length)).sum <
        (l.map (fun kb => kb.2.length)).sum := by
  intro l
  induction l with
  | nil => intro kb0 h; cases h
  | cons kb rest ih =>
    intro kb0 hmem hx
    simp only [List.map_cons, List.sum_cons]
    rcases List.mem_cons.mp hmem with h0 | h0
    · subst h0
      have h1 := length_filter_ne_lt hx
      have h2 : (rest.map (fun kb => (kb.2.filter (fun v => v != x)).length)).sum ≤
          (rest.map (fun kb => kb.2.length)).sum := by
        apply List.sum_le_sum
        intro i _
        exact List.length_filter_le _ _
      omega
    · have h1 : (kb.2.filter (fun v => v != x)).length ≤ kb.2.length :=
        List.length_filter_le _ _
      have h2 := ih kb0 h0 hx
      omega

/-- Spelling out `consume_one` on a hit: the value is the `get` result and
the new map filters it from every bucket. -/
lemma consume_one_some {mm : MultiMap} {k : Position} {x : ℕ} {mm' : MultiMap}
    (h : mm.consume_one k = (some x, mm')) :
    mm.get k = some x ∧
      mm' = ⟨mm.m.map (fun kb => (kb.1, kb.2.filter (fun v => v != x)))⟩ := by
  unfold MultiMap.consume_one at h
  cases hg : mm.get k with
  | none => rw [hg] at h; simp at h
  | some y =>
    rw [hg] at h
    injection h with h1 h2
    injection h1 with h1
    subst h1
    subst h2
    exact ⟨rfl, rfl⟩

/-- A successful `get` exhibits the bucket holding the value. -/
lemma get_some_bucket {mm : MultiMap} {k : Position} {x : ℕ}
    (hg : mm.get k = some x) :
    ∃ kb0, kb0 ∈ mm.m ∧ mm.m.find? (fun kb => kb.1 == k) = some kb0 ∧
      kb0.2.head? = some x := by
  unfold MultiMap.get at hg
  cases hf : mm.m.find? (fun kb => kb.1 == k) with
  | none => rw [hf] at hg; simp at hg
  | some kb0 =>
    rw [hf] at hg
    exact ⟨kb0, List.mem_of_find?_eq_some hf, rfl, by simpa using hg⟩

lemma totalCount_lt_of_consume {mm : MultiMap} {k : Position} {x : ℕ} {mm' : MultiMap}
    (h : mm.consume_one k = (some x, mm')) :
    mm'.totalCount < mm.totalCount := by
  obtain ⟨hg, rfl⟩ := consume_one_some h
  obtain ⟨kb0, hmem0, -, hhead⟩ := get_some_bucket hg
  have hxkb : x ∈ kb0.2 :=
    List.mem_of_mem_head? (show kb0.2.head? = some x from hhead)
  unfold MultiMap.totalCount
  simp only [List.map_map]
  have := sum_filter_lt mm.m kb0 hmem0 hxkb
  simpa [Function.comp] using this

lemma totalCount_lt_of_consume_fst {mm : MultiMap} {k : Position} {x : ℕ}
    (hx : (mm.consume_one k).1 = some x) :
    (mm.consume_one k).2.totalCount < mm.totalCount := by
  apply totalCount_lt_of_consume (k := k) (x := x)
  conv_lhs => rw [← Prod.mk.eta (p := mm.consume_one k)]
  rw [hx]

/-- The assembly loop of `create_continuous_linering` (`geom.rs`): while the
endpoint index is not empty, consume a candidate at the working ring's end
position and splice it on.  The second component counts the `consume_one`
index queries performed.  Terminates because each successful consumption
strictly shrinks the index. -/
def assembleLoop (lss : List Line) (line : Line) (mm : MultiMap) :
    Except GeomError Line × ℕ :=
  if mm.is_empty then
    (if line.start = line.endPos then (.ok line, 0) else (.error .unclosedRing, 0))
  else
    let c := mm.consume_one line.endPos
    if hc : c.1.isSome then
      match line.extend (lss.getD (c.1.get hc) default) with
      | .error e => (.error e, 1)
      | .ok line' =>
        let r := assembleLoop lss line' c.2
        (r.1, r.2 + 1)
    else
      (.error .noMatchingSegment, 1)
termination_by mm.totalCount
decreasing_by
  obtain ⟨x, hx⟩ := Option.isSome_iff_exists.mp hc
  exact totalCount_lt_of_consume_fst hx

/-- The index-building loop of `create_continuous_linering`: register every
linestring (by index) under its start and end positions.  The source
iterates `enumerate().skip(1)`, so the seed (index 0) is never indexed. -/
def buildEndpointsAux (lss : List Line) (i : ℕ) (mm : MultiMap) : MultiMap :=
  match lss with
  | [] => mm
  | ls :: rest => buildEndpointsAux rest (i + 1) ((mm.insert ls.start i).insert ls.endPos i)

def buildEndpoints (lss : List Line) : MultiMap :=
  buildEndpointsAux (lss.drop 1) 1 default

/-- `create_continuous_linering` from `geom.rs`. -/
def create_continuous_linering (linestrings : List Line) : Except GeomError Line :=
  match linestrings with
  | [] => .error .noLinestrings
  | first :: _ => (assembleLoop linestrings first (buildEndpoints linestrings)).1

/-- Number of endpoint-index queries (`consume_one` calls) performed by
`create_continuous_linering` on the given input. -/
def lineringQueries (linestrings : List Line) : ℕ :=
  match linestrings with
  | [] => 0
  | first :: _ => (assembleLoop linestrings first (buildEndpoints linestrings)).2

/-- The summand list of the shoelace computation in `is_clockwise`: the
source zips the ring with itself chained to itself and shifted by one, so
consecutive pairs are taken cyclically (last paired with first). -/
def shoelaceTerms (pts : List Position) : List ℚ :=
  (pts.zip ((pts ++ pts).drop 1)).map (fun cn => (cn.2.x - cn.1.x) * (cn.2.y + cn.1.y))

/-- `is_clockwise` from `geom.rs`: positive shoelace sum. -/
def is_clockwise (ring : Line) : Bool :=
  decide ((shoelaceTerms ring.pts).sum > 0)

/-- The orientation-normalization step of `as_polygon` (`geom.rs`): reverse
the ring in place when it is wound clockwise. -/
def normalizeOrientation (ring : Line) : Line :=
  if is_clockwise ring then ring.reverse else ring

/-! ### Unfolding lemmas for the assembly loop -/

lemma assembleLoop_empty {lss : List Line} {line : Line} {mm : MultiMap}
    (h : mm.is_empty = true) :
    assembleLoop lss line mm =
      (if line.start = line.endPos then (Except.ok line, 0)
       else (Except.error GeomError.unclosedRing, 0)) := by
  rw [assembleLoop]
  simp [h]

lemma assembleLoop_none {lss : List Line} {line : Line} {mm : MultiMap}
    (h : mm.is_empty = false) (hc : (mm.consume_one line.endPos).1 = none) :
    assembleLoop lss line mm = (Except.error GeomError.noMatchingSegment, 1) := by
  rw [assembleLoop]
  simp [h, hc]

lemma assembleLoop_extend_error {lss : List Line} {line : Line} {mm : MultiMap} {i : ℕ}
    {e : GeomError}
    (h : mm.is_empty = false) (hc : (mm.consume_one line.endPos).1 = some i)
    (he : line.extend (lss.getD i default) = .error e) :
    assembleLoop lss line mm = (Except.error e, 1) := by
  rw [assembleLoop]
  simp only [List.getD_eq_getElem?_getD] at he
  simp [h, hc, he]

lemma assembleLoop_extend_ok {lss : List Line} {line : Line} {mm : MultiMap} {i : ℕ}
    {line' : Line}
    (h : mm.is_empty = false) (hc : (mm.consume_one line.endPos).1 = some i)
    (he : line.extend (lss.getD i default) = .ok line') :
    assembleLoop lss line mm =
      ((assembleLoop lss line' (mm.consume_one line.endPos).2).1,
       (assembleLoop lss line' (mm.consume_one line.endPos).2).2 + 1) := by
  rw [assembleLoop]
  simp only [List.getD_eq_getElem?_getD] at he
  simp [h, hc, he]

/-! ### C8 and C9: degenerate single-loop input and disconnected input -/

/-- C8: for a single segment whose start equals its end,
`create_continuous_linering` returns that segment unchanged and performs
zero index queries (no `consume_one` call is made). -/
theorem claim_C8 (l : Line) (h : l.start = l.endPos) :
    create_continuous_linering [l] = .ok l ∧ lineringQueries [l] = 0 := by
  have hmm : (buildEndpoints [l]).is_empty = true := rfl
  have hloop := @assembleLoop_empty [l] l (buildEndpoints [l]) hmm
  rw [if_pos h] at hloop
  constructor
  · show (assembleLoop [l] l (buildEndpoints [l])).1 = _
    rw [hloop]
  · show (assembleLoop [l] l (buildEndpoints [l])).2 = 0
    rw [hloop]

theorem claim_C8_witness :
    create_continuous_linering [⟨[⟨0, 0⟩, ⟨0, 0⟩], by simp⟩] =
        .ok ⟨[⟨0, 0⟩, ⟨0, 0⟩], by simp⟩ ∧
      lineringQueries [⟨[⟨0, 0⟩, ⟨0, 0⟩], by simp⟩] = 0 :=
  claim_C8 _ (by rfl)

/-- C9: for two segments that share no endpoint position,
`create_continuous_linering` returns the no-matching-segment error (and, the
function being total, never panics). -/
theorem claim_C9 (l1 l2 : Line)
    (_h1 : l1.start ≠ l2.start) (_h2 : l1.start ≠ l2.endPos)
    (h3 : l1.endPos ≠ l2.start) (h4 : l1.endPos ≠ l2.endPos) :
    create_continuous_linering [l1, l2] = .error .noMatchingSegment := by
  have hm : (buildEndpoints [l1, l2]).m = [(l2.start, [1])] ∨
      (buildEndpoints [l1, l2]).m = [(l2.start, [1]), (l2.endPos, [1])] := by
    show (MultiMap.insert ⟨[(l2.start, [1])]⟩ l2.endPos 1).m = _ ∨
      (MultiMap.insert ⟨[(l2.start, [1])]⟩ l2.endPos 1).m = _
    by_cases hcase : l2.start = l2.endPos
    · left
      show insertAux [(l2.start, [1])] l2.endPos 1 = _
      unfold insertAux
      rw [if_pos hcase]
      rfl
    · right
      show insertAux [(l2.start, [1])] l2.endPos 1 = _
      unfold insertAux
      rw [if_neg hcase]
      rfl
  have e3 : (l2.start == l1.endPos) = false := beq_eq_false_iff_ne.mpr (Ne.symm h3)
  have e4 : (l2.endPos == l1.endPos) = false := beq_eq_false_iff_ne.mpr (Ne.symm h4)
  have hempty : (buildEndpoints [l1, l2]).is_empty = false := by
    rcases hm with hm' | hm' <;> simp [MultiMap.is_empty, hm']
  have hget : (buildEndpoints [l1, l2]).get l1.endPos = none := by
    rcases hm with hm' | hm' <;> simp [MultiMap.get, hm', List.find?, e3, e4]
  have hcons : ((buildEndpoints [l1, l2]).consume_one l1.endPos).1 = none := by
    simp [MultiMap.consume_one, hget]
  show (assembleLoop [l1, l2] l1 (buildEndpoints [l1, l2])).1 = _
  rw [assembleLoop_none hempty hcons]

theorem claim_C9_witness :
    create_continuous_linering
        [⟨[⟨0, 0⟩, ⟨1, 0⟩], by simp⟩, ⟨[⟨2, 0⟩, ⟨3, 0⟩], by simp⟩] =
      .error .noMatchingSegment :=
  claim_C9 _ _ (by decide) (by decide) (by decide) (by decide)

/-! ### Shoelace machinery for C5 and C6 -/

/-- Cyclic consecutive pairs of a list: each element paired with its cyclic
successor (the last element paired with the first). -/
def cyclicPairs (pts : List Position) : List (Position × Position) :=
  pts.zip (pts.rotate 1)

/-- The shoelace summand of the spec (§4.3). -/
def shoelaceTerm (cn : Position × Position) : ℚ :=
  (cn.2.x - cn.1.x) * (cn.2.y + cn.1.y)

/-- The spec's signed area: `Σ` over consecutive `(cur, next)` of
`(next.x - cur.x) * (next.y + cur.y)`, computed cyclically. -/
def specSignedArea (pts : List Position) : ℚ :=
  ((cyclicPairs pts).map shoelaceTerm).sum

lemma zip_take_right : ∀ (l : List Position) (x : List Position),
    l.zip (x.take l.length) = l.zip x := by
  intro l
  induction l with
  | nil => intro x; simp
  | cons a t ih =>
    intro x
    cases x with
    | nil => simp
    | cons b u => simp [List.zip_cons_cons, ih u]

/-- The source's zip-chain-skip construction computes exactly the cyclic
pairs. -/
lemma shoelaceTerms_eq_cyclic (pts : List Position) :
    shoelaceTerms pts = (cyclicPairs pts).map shoelaceTerm := by
  cases pts with
  | nil => rfl
  | cons a t =>
    unfold shoelaceTerms cyclicPairs shoelaceTerm
    congr 1
    have h1 : ((a :: t) ++ a :: t).drop 1 = t ++ a :: t := by simp
    have h2 : (a :: t).rotate 1 = t ++ [a] := by
      simpa using List.rotate_cons_succ t a 0
    rw [h1, h2]
    have h3 : (t ++ [a]) = (t ++ a :: t).take (a :: t).length := by
      simp [List.take_append_eq_append_take]
    rw [h3, zip_take_right]

lemma sum_map_sub_q {α : Type} (l : List α) (u v : α → ℚ) :
    (l.map (fun x => u x - v x)).sum = (l.map u).sum - (l.map v).sum := by
  induction l with
  | nil => simp
  | cons a t ih => simp [ih]; ring

lemma sum_map_add_q {α : Type} (l : List α) (u v : α → ℚ) :
    (l.map (fun x => u x + v x)).sum = (l.map u).sum + (l.map v).sum := by
  induction l with
  | nil => simp
  | cons a t ih => simp [ih]; ring

/-- Cyclic telescoping: summing a potential difference over the cyclic
pairs gives zero, because the successors are a permutation of the list. -/
lemma cyclic_telescope (pts : List Position) (h : Position → ℚ) :
    ((cyclicPairs pts).map (fun cn => h cn.2 - h cn.1)).sum = 0 := by
  unfold cyclicPairs
  rw [sum_map_sub_q]
  have hfst : (pts.zip (pts.rotate 1)).map Prod.fst = pts :=
    List.map_fst_zip _ _ (by simp [List.length_rotate])
  have hsnd : (pts.zip (pts.rotate 1)).map Prod.snd = pts.rotate 1 :=
    List.map_snd_zip _ _ (by simp [List.length_rotate])
  have e1 : ((pts.zip (pts.rotate 1)).map fun cn => h cn.2).sum = ((pts.rotate 1).map h).sum := by
    rw [show ((pts.zip (pts.rotate 1)).map fun cn => h cn.2) =
        ((pts.zip (pts.rotate 1)).map Prod.snd).map h by rw [List.map_map]; rfl, hsnd]
  have e2 : ((pts.zip (pts.rotate 1)).map fun cn => h cn.1).sum = (pts.map h).sum := by
    rw [show ((pts.zip (pts.rotate 1)).map fun cn => h cn.1) =
        ((pts.zip (pts.rotate 1)).map Prod.fst).map h by rw [List.map_map]; rfl, hfst]
  rw [e1, e2]
  have : ((pts.rotate 1).map h).sum = (pts.map h).sum :=
    List.Perm.sum_eq (List.Perm.map h (List.rotate_perm pts 1))
  rw [this]
  ring

/-- Zero area for rings over at most two distinct points: the summand is a
potential difference there, so the cyclic sum telescopes away. -/
lemma specSignedArea_two_points {pts : List Position} {a b : Position}
    (hab : ∀ p ∈ pts, p = a ∨ p = b) : specSignedArea pts = 0 := by
  unfold specSignedArea
  have hcongr : (cyclicPairs pts).map shoelaceTerm =
      (cyclicPairs pts).map (fun cn =>
        (fun p => if p = a then 0 else shoelaceTerm (a, b)) cn.2 -
        (fun p => if p = a then 0 else shoelaceTerm (a, b)) cn.1) := by
    apply List.map_congr_left
    intro cn hcn
    obtain ⟨hc, hn'⟩ := List.of_mem_zip hcn
    have hn : cn.2 ∈ pts := List.mem_rotate.mp hn'
    rcases hab cn.1 hc with h1 | h1 <;> rcases hab cn.2 hn with h2 | h2 <;>
      by_cases hba : b = a <;>
      simp only [shoelaceTerm, h1, h2, hba, if_pos, if_neg, ite_true, ite_false,
        reduceIte] <;> ring_nf
  rw [hcongr]
  exact cyclic_telescope pts (fun p => if p = a then 0 else shoelaceTerm (a, b))

/-- C5: `is_clockwise` decides exactly "spec signed area > 0", and rings of
fewer than three distinct points have area zero, are not clockwise and are
not reversed. -/
theorem claim_C5 (r : Line) :
    (is_clockwise r = true ↔ specSignedArea r.pts > 0) ∧
    (∀ a b : Position, (∀ p ∈ r.pts, p = a ∨ p = b) →
      specSignedArea r.pts = 0 ∧ is_clockwise r = false ∧
        normalizeOrientation r = r) := by
  have harea : (shoelaceTerms r.pts).sum = specSignedArea r.pts := by
    rw [shoelaceTerms_eq_cyclic]; rfl
  constructor
  · unfold is_clockwise
    rw [harea]
    exact decide_eq_true_iff
  · intro a b hab
    have h0 := specSignedArea_two_points hab
    have hfalse : is_clockwise r = false := by
      unfold is_clockwise
      rw [harea, h0]
      simp
    refine ⟨h0, hfalse, ?_⟩
    unfold normalizeOrientation
    rw [hfalse]
    simp

theorem claim_C5_witness :
    specSignedArea (Line.pts ⟨[⟨0, 0⟩, ⟨1, 1⟩, ⟨0, 0⟩], by simp⟩) = 0 ∧
      is_clockwise ⟨[⟨0, 0⟩, ⟨1, 1⟩, ⟨0, 0⟩], by simp⟩ = false ∧
      normalizeOrientation ⟨[⟨0, 0⟩, ⟨1, 1⟩, ⟨0, 0⟩], by simp⟩ =
        ⟨[⟨0, 0⟩, ⟨1, 1⟩, ⟨0, 0⟩], by simp⟩ :=
  (claim_C5 _).2 ⟨0, 0⟩ ⟨1, 1⟩ (by decide)

/-- The antisymmetric cross part of the shoelace summand. -/
def cross (c n : Position) : ℚ := n.x * c.y - c.x * n.y

lemma sum_map_neg_q {α : Type} (l : List α) (u : α → ℚ) :
    (l.map (fun x => -(u x))).sum = -(l.map u).sum := by
  induction l with
  | nil => simp
  | cons a t ih => simp [ih]; ring

/-- The signed area is the cyclic sum of the cross terms alone: the
remaining part of the summand telescopes away. -/
lemma specSignedArea_eq_crossSum (pts : List Position) :
    specSignedArea pts = ((cyclicPairs pts).map (fun cn => cross cn.1 cn.2)).sum := by
  unfold specSignedArea
  have hcongr : (cyclicPairs pts).map shoelaceTerm =
      (cyclicPairs pts).map (fun cn =>
        ((fun p => p.x * p.y) cn.2 - (fun p => p.x * p.y) cn.1) +
          cross cn.1 cn.2) := by
    apply List.map_congr_left
    intro cn _
    unfold shoelaceTerm cross
    ring
  rw [hcongr]
  rw [sum_map_add_q (cyclicPairs pts)
    (fun cn => (fun p => p.x * p.y) cn.2 - (fun p => p.x * p.y) cn.1)
    (fun cn => cross cn.1 cn.2)]
  rw [cyclic_telescope pts (fun p => p.x * p.y), zero_add]

/-- Adjacent consecutive pairs of a list. -/
def adjPairs : List Position → List (Position × Position)
  | [] => []
  | [_] => []
  | a :: b :: t => (a, b) :: adjPairs (b :: t)

lemma ringZip (t : List Position) (x y : Position) :
    (x :: t).zip (t ++ [y]) = adjPairs (x :: t) ++ [((x :: t).getLastD y, y)] := by
  induction t generalizing x with
  | nil => rfl
  | cons b u ih =>
    show (x, b) :: (b :: u).zip (u ++ [y]) = _
    rw [ih b]
    rfl

lemma cyclicPairs_cons (x : Position) (t : List Position) :
    cyclicPairs (x :: t) = adjPairs (x :: t) ++ [((x :: t).getLastD x, x)] := by
  unfold cyclicPairs
  have h2 : (x :: t).rotate 1 = t ++ [x] := by
    simpa using List.rotate_cons_succ t x 0
  rw [h2, ringZip]

lemma getLastD_irrel (x : Position) (t : List Position) (d d' : Position) :
    (x :: t).getLastD d = (x :: t).getLastD d' := by
  induction t generalizing x with
  | nil => rfl
  | cons b u ih => exact ih b

lemma adjPairs_concat (x : Position) (m : List Position) (hm : m ≠ []) :
    adjPairs (m ++ [x]) = adjPairs m ++ [(m.getLastD x, x)] := by
  induction m with
  | nil => exact absurd rfl hm
  | cons a m' ih =>
    cases m' with
    | nil => rfl
    | cons b t =>
      show (a, b) :: adjPairs (b :: t ++ [x]) = _
      rw [show (b :: t) ++ [x] = b :: t ++ [x] from rfl] at ih
      rw [ih (by simp)]
      rfl

lemma getLastD_rev_cons (c : Position) (u : List Position) (d : Position) :
    ((c :: u).reverse).getLastD d = c := by
  rw [List.reverse_cons]
  exact List.getLastD_concat _ _ _

lemma adjPairs_reverse (l : List Position) :
    adjPairs l.reverse = ((adjPairs l).map Prod.swap).reverse := by
  induction l with
  | nil => rfl
  | cons a t ih =>
    cases t with
    | nil => rfl
    | cons b u =>
      rw [List.reverse_cons]
      rw [adjPairs_concat a _ (by simp)]
      rw [ih]
      rw [getLastD_rev_cons b u a]
      show _ = (((b, a) :: (adjPairs (b :: u)).map Prod.swap)).reverse
      rw [List.reverse_cons]

lemma cyclicPairs_eq_adj (l : List Position) (hl : l ≠ []) :
    cyclicPairs l = adjPairs l ++ [(l.getLastD default, l.headI)] := by
  cases l with
  | nil => exact absurd rfl hl
  | cons x t =>
    rw [cyclicPairs_cons, getLastD_irrel x t x default]
    rfl

lemma headI_reverse (l : List Position) (hl : l ≠ []) :
    (l.reverse).headI = l.getLastD default := by
  cases h : l.reverse with
  | nil => exact absurd (by simpa using congrArg List.reverse h) hl
  | cons c s =>
    have hle : l = (c :: s).reverse := by rw [← h, List.reverse_reverse]
    conv_rhs => rw [hle, getLastD_rev_cons]
    rfl

lemma crossSum_reverse (l : List Position) :
    ((cyclicPairs l.reverse).map (fun cn => cross cn.1 cn.2)).sum =
      -((cyclicPairs l).map (fun cn => cross cn.1 cn.2)).sum := by
  cases l with
  | nil => simp [cyclicPairs]
  | cons x t =>
    have hl : (x :: t) ≠ [] := by simp
    have hrl : (x :: t).reverse ≠ [] := by simp
    rw [cyclicPairs_eq_adj _ hrl, cyclicPairs_eq_adj _ hl]
    rw [adjPairs_reverse]
    rw [List.map_append, List.sum_append, List.map_append, List.sum_append]
    rw [List.map_reverse, List.sum_reverse, List.map_map]
    have h1 : ((adjPairs (x :: t)).map ((fun cn => cross cn.1 cn.2) ∘ Prod.swap)).sum
        = -((adjPairs (x :: t)).map (fun cn => cross cn.1 cn.2)).sum := by
      have he : ((fun cn => cross cn.1 cn.2) ∘ Prod.swap) =
          (fun cn : Position × Position => -(cross cn.1 cn.2)) := by
        funext cn
        simp only [Function.comp, Prod.swap, cross]
        ring
      rw [he]
      exact sum_map_neg_q _ _
    rw [h1]
    have h2 : ((x :: t).reverse).getLastD default = (x :: t).headI := by
      rw [getLastD_rev_cons]
      rfl
    rw [h2, headI_reverse _ hl]
    simp only [List.map_cons, List.map_nil, List.sum_cons, List.sum_nil]
    unfold cross
    ring

/-- Reversing a ring negates its signed area. -/
lemma specSignedArea_reverse (pts : List Position) :
    specSignedArea pts.reverse = -specSignedArea pts := by
  rw [specSignedArea_eq_crossSum, specSignedArea_eq_crossSum]
  exact crossSum_reverse pts

lemma is_clockwise_eq_decide (r : Line) :
    is_clockwise r = decide (specSignedArea r.pts > 0) := by
  unfold is_clockwise
  rw [shoelaceTerms_eq_cyclic]
  rfl

lemma is_clockwise_reverse_false {r : Line} (h : is_clockwise r = true) :
    is_clockwise r.reverse = false := by
  have hpos : specSignedArea r.pts > 0 := by
    rw [is_clockwise_eq_decide] at h
    exact of_decide_eq_true h
  rw [is_clockwise_eq_decide]
  have harea : specSignedArea r.reverse.pts = -specSignedArea r.pts := by
    show specSignedArea r.pts.reverse = _
    exact specSignedArea_reverse r.pts
  rw [harea]
  simp only [decide_eq_false_iff_not, gt_iff_lt, not_lt]
  linarith

/-- C6: a ring that is not clockwise is left unchanged by the orientation
normalizer, and the normalizer is idempotent: re-running it on its own
output never toggles the direction again. -/
theorem claim_C6 (r : Line) :
    (is_clockwise r = false → normalizeOrientation r = r) ∧
      normalizeOrientation (normalizeOrientation r) = normalizeOrientation r := by
  constructor
  · intro h
    unfold normalizeOrientation
    rw [h]
    simp
  · by_cases h : is_clockwise r
    · have h1 : normalizeOrientation r = r.reverse := by
        unfold normalizeOrientation
        rw [h]
        simp
      rw [h1]
      unfold normalizeOrientation
      rw [is_clockwise_reverse_false h]
      simp
    · have h0 : is_clockwise r = false := by simpa using h
      have h1 : normalizeOrientation r = r := by
        unfold normalizeOrientation
        rw [h0]
        simp
      rw [h1, h1]

theorem claim_C6_witness :
    normalizeOrientation ⟨[⟨0, 0⟩, ⟨1, 0⟩, ⟨1, 1⟩, ⟨0, 0⟩], by simp⟩ =
        ⟨[⟨0, 0⟩, ⟨1, 0⟩, ⟨1, 1⟩, ⟨0, 0⟩], by simp⟩ ∧
      normalizeOrientation (normalizeOrientation ⟨[⟨0, 0⟩, ⟨1, 0⟩, ⟨1, 1⟩, ⟨0, 0⟩], by simp⟩) =
        normalizeOrientation ⟨[⟨0, 0⟩, ⟨1, 0⟩, ⟨1, 1⟩, ⟨0, 0⟩], by simp⟩ :=
  ⟨(claim_C6 _).1 (by norm_num [is_clockwise, shoelaceTerms]), (claim_C6 _).2⟩

/-! ### C3: global removal in `consume_one` and the no-reconsumption invariant -/

/-- A value is absent from every bucket of the map. -/
def MultiMap.Absent (i : ℕ) (mm : MultiMap) : Prop :=
  ∀ kb ∈ mm.m, i ∉ kb.2

/-- The results of a sequence of successive `consume_one` calls. -/
def consumeRun (mm : MultiMap) : List Position → List (Option ℕ)
  | [] => []
  | k :: ks => (mm.consume_one k).1 :: consumeRun (mm.consume_one k).2 ks

lemma absent_after_consume {mm : MultiMap} {k : Position} {i : ℕ} {mm' : MultiMap}
    (h : mm.consume_one k = (some i, mm')) : MultiMap.Absent i mm' := by
  obtain ⟨-, rfl⟩ := consume_one_some h
  intro kb' hkb' hi
  simp only [List.mem_map] at hkb'
  obtain ⟨kb, -, rfl⟩ := hkb'
  have := List.of_mem_filter hi
  simp at this

lemma get_ne_of_absent {mm : MultiMap} {i : ℕ} (ha : MultiMap.Absent i mm)
    (k : Position) : mm.get k ≠ some i := by
  intro h
  obtain ⟨kb0, hmem, -, hhead⟩ := get_some_bucket h
  exact ha kb0 hmem (List.mem_of_mem_head? (show kb0.2.head? = some i from hhead))

lemma absent_preserved {mm : MultiMap} {i : ℕ} (ha : MultiMap.Absent i mm)
    (k : Position) : MultiMap.Absent i (mm.consume_one k).2 := by
  unfold MultiMap.consume_one
  cases hg : mm.get k with
  | none => exact ha
  | some x =>
    intro kb' hkb' hi
    simp only [List.mem_map] at hkb'
    obtain ⟨kb, hkb, rfl⟩ := hkb'
    exact ha kb hkb (List.mem_of_mem_filter hi)

lemma consume_fst_ne_of_absent {mm : MultiMap} {i : ℕ} (ha : MultiMap.Absent i mm)
    (k : Position) : (mm.consume_one k).1 ≠ some i := by
  unfold MultiMap.consume_one
  cases hg : mm.get k with
  | none => simp
  | some x =>
    simp only
    intro hx
    injection hx with hx
    subst hx
    exact get_ne_of_absent ha k hg

lemma consumeRun_not_mem_of_absent {i : ℕ} :
    ∀ (ks : List Position) (mm : MultiMap), MultiMap.Absent i mm →
      some i ∉ consumeRun mm ks := by
  intro ks
  induction ks with
  | nil => intro mm _ h; cases h
  | cons k ks ih =>
    intro mm ha h
    rcases List.mem_cons.mp h with h1 | h1
    · exact consume_fst_ne_of_absent ha k h1.symm
    · exact ih _ (absent_preserved ha k) h1

lemma consumeRun_nodup (ks : List Position) :
    ∀ mm : MultiMap, ((consumeRun mm ks).reduceOption).Nodup := by
  induction ks with
  | nil => intro mm; simp [consumeRun]
  | cons k ks ih =>
    intro mm
    show ((mm.consume_one k).1 :: consumeRun (mm.consume_one k).2 ks).reduceOption.Nodup
    cases hc : (mm.consume_one k).1 with
    | none => simpa [List.reduceOption_cons_of_none] using ih (mm.consume_one k).2
    | some i =>
      rw [List.reduceOption_cons_of_some]
      refine List.nodup_cons.mpr ⟨?_, ih (mm.consume_one k).2⟩
      intro hmem
      have habs : MultiMap.Absent i (mm.consume_one k).2 := by
        apply @absent_after_consume mm k i ((mm.consume_one k).2)
        conv_lhs => rw [← Prod.mk.eta (p := mm.consume_one k)]
        rw [hc]
      exact consumeRun_not_mem_of_absent ks _ habs (List.reduceOption_mem_iff.mp hmem)

/-- C3: a consumed id is removed from every bucket (its other endpoint's
bucket included); no later `get` or `consume_one` under any key returns it
again, and during any run of successive consumptions no id is ever
returned twice. -/
theorem claim_C3 (mm : MultiMap) (k : Position) (i : ℕ) (mm' : MultiMap)
    (h : mm.consume_one k = (some i, mm')) :
    (∀ kb ∈ mm'.m, i ∉ kb.2) ∧
      (∀ k' : Position, mm'.get k' ≠ some i) ∧
      (∀ ks : List Position, some i ∉ consumeRun mm' ks) ∧
      (∀ (mm₀ : MultiMap) (ks : List Position),
        ((consumeRun mm₀ ks).reduceOption).Nodup) := by
  have habs := absent_after_consume h
  exact ⟨habs, fun k' => get_ne_of_absent habs k',
    fun ks => consumeRun_not_mem_of_absent ks mm' habs,
    fun mm₀ ks => consumeRun_nodup ks mm₀⟩

theorem claim_C3_witness :
    (∀ kb ∈ (((MultiMap.insert (MultiMap.insert default ⟨0, 0⟩ 12) ⟨1, 0⟩ 12).consume_one ⟨0, 0⟩).2).m,
        12 ∉ kb.2) ∧
      (∀ k' : Position,
        (((MultiMap.insert (MultiMap.insert default ⟨0, 0⟩ 12) ⟨1, 0⟩ 12).consume_one ⟨0, 0⟩).2).get k' ≠
          some 12) ∧
      (∀ ks : List Position,
        some 12 ∉ consumeRun (((MultiMap.insert (MultiMap.insert default ⟨0, 0⟩ 12) ⟨1, 0⟩ 12).consume_one ⟨0, 0⟩).2) ks) ∧
      (∀ (mm₀ : MultiMap) (ks : List Position),
        ((consumeRun mm₀ ks).reduceOption).Nodup) :=
  claim_C3 ((MultiMap.insert (MultiMap.insert default ⟨0, 0⟩ 12) ⟨1, 0⟩ 12)) ⟨0, 0⟩ 12
    ((((MultiMap.insert (MultiMap.insert default ⟨0, 0⟩ 12) ⟨1, 0⟩ 12)).consume_one ⟨0, 0⟩).2)
    (by decide)

/-! ### Endpoint-index invariant machinery (C4, later C2) -/

/-- The bucket stored under a key (empty when the key is unknown). -/
def MultiMap.bucket (mm : MultiMap) (k : Position) : List ℕ :=
  ((mm.m.find? (fun kb => kb.1 == k)).map (fun kb => kb.2)).getD []

lemma get_eq_bucket_head (mm : MultiMap) (k : Position) :
    mm.get k = (mm.bucket k).head? := by
  unfold MultiMap.get MultiMap.bucket
  cases mm.m.find? (fun kb => kb.1 == k) with
  | none => rfl
  | some kb => rfl

lemma mem_bucketInsert {b : List ℕ} {v w : ℕ} :
    w ∈ bucketInsert b v ↔ w ∈ b ∨ w = v := by
  induction b with
  | nil => simp [bucketInsert]
  | cons x xs ih =>
    unfold bucketInsert
    by_cases h1 : v < x
    · rw [if_pos h1]
      simp [or_comm, or_assoc]
    · rw [if_neg h1]
      by_cases h2 : v = x
      · subst h2
        simp
        tauto
      · rw [if_neg h2]
        simp only [List.mem_cons, ih]
        tauto

lemma bucket_insert (mm : MultiMap) (k0 : Position) (v : ℕ) (k : Position) :
    (mm.insert k0 v).bucket k =
      if k = k0 then bucketInsert (mm.bucket k0) v else mm.bucket k := by
  show (MultiMap.bucket ⟨insertAux mm.m k0 v⟩ k) = _
  unfold MultiMap.bucket
  induction mm.m with
  | nil =>
    by_cases hk : k = k0
    · subst hk
      simp [insertAux, List.find?]
    · have hbeq : (k0 == k) = false := beq_eq_false_iff_ne.mpr (Ne.symm hk)
      simp [insertAux, List.find?, hbeq, hk]
  | cons kb rest ih =>
    show (((insertAux (kb :: rest) k0 v).find? (fun kb => kb.1 == k)).map (fun kb => kb.2)).getD [] = _
    unfold insertAux
    by_cases h0 : kb.1 = k0
    · rw [if_pos h0]
      by_cases hk : k = k0
      · subst hk
        rw [if_pos rfl]
        have : (kb.1 == k) = true := beq_iff_eq.mpr h0
        simp [List.find?, this, h0]
      · have hne : (kb.1 == k) = false := by
          apply beq_eq_false_iff_ne.mpr
          rw [h0]
          exact fun h => hk h.symm
        rw [if_neg hk]
        simp [List.find?, hne]
    · rw [if_neg h0]
      by_cases hk1 : kb.1 = k
      · have hbeq : (kb.1 == k) = true := beq_iff_eq.mpr hk1
        have hkk0 : ¬(k = k0) := by
          intro h
          exact h0 (hk1.trans h)
        rw [if_neg hkk0]
        simp [List.find?, hbeq]
      · have hbeq : (kb.1 == k) = false := beq_eq_false_iff_ne.mpr hk1
        have hbeq0 : (kb.1 == k0) = false := beq_eq_false_iff_ne.mpr h0
        simp only [List.find?, hbeq, hbeq0]
        exact ih

lemma mem_bucket_insert {mm : MultiMap} {k0 k : Position} {v w : ℕ} :
    w ∈ (mm.insert k0 v).bucket k ↔ w ∈ mm.bucket k ∨ (k = k0 ∧ w = v) := by
  rw [bucket_insert]
  by_cases hk : k = k0
  · subst hk
    rw [if_pos rfl, mem_bucketInsert]
    tauto
  · rw [if_neg hk]
    tauto

lemma bucket_consume_some {mm : MultiMap} {k0 : Position} {x : ℕ} {mm' : MultiMap}
    (h : mm.consume_one k0 = (some x, mm')) (k : Position) :
    mm'.bucket k = (mm.bucket k).filter (fun v => v != x) := by
  obtain ⟨-, rfl⟩ := consume_one_some h
  show MultiMap.bucket ⟨mm.m.map _⟩ k = _
  unfold MultiMap.bucket
  rw [List.find?_map]
  cases hf : mm.m.find? (fun kb => kb.1 == k) with
  | none =>
    have : (fun kb : Position × List ℕ => kb.1 == k) ∘
        (fun kb : Position × List ℕ => (kb.1, kb.2.filter (fun v => v != x))) =
        (fun kb : Position × List ℕ => kb.1 == k) := by
      funext kb
      rfl
    rw [this, hf]
    rfl
  | some kb =>
    have : (fun kb : Position × List ℕ => kb.1 == k) ∘
        (fun kb : Position × List ℕ => (kb.1, kb.2.filter (fun v => v != x))) =
        (fun kb : Position × List ℕ => kb.1 == k) := by
      funext kb
      rfl
    rw [this, hf]
    rfl

/-- Membership in the buckets built by the index-construction loop. -/
lemma mem_bucket_buildAux :
    ∀ (L : List Line) (i0 : ℕ) (mm : MultiMap) (k : Position) (v : ℕ),
      v ∈ (buildEndpointsAux L i0 mm).bucket k ↔
        v ∈ mm.bucket k ∨ ∃ j, j < L.length ∧ v = i0 + j ∧
          (k = (L.getD j default).start ∨ k = (L.getD j default).endPos) := by
  intro L
  induction L with
  | nil =>
    intro i0 mm k v
    simp [buildEndpointsAux]
  | cons ls rest ih =>
    intro i0 mm k v
    show v ∈ (buildEndpointsAux rest (i0 + 1) ((mm.insert ls.start i0).insert ls.endPos i0)).bucket k ↔ _
    rw [ih]
    rw [mem_bucket_insert, mem_bucket_insert]
    constructor
    · rintro (((hv | ⟨hk, hv⟩) | ⟨hk, hv⟩) | ⟨j, hj, hv, hk⟩)
      · exact Or.inl hv
      · exact Or.inr ⟨0, by simp, by omega, by simp [hk]⟩
      · exact Or.inr ⟨0, by simp, by omega, by simp [hk]⟩
      · refine Or.inr ⟨j + 1, by simpa using hj, by omega, ?_⟩
        simpa using hk
    · rintro (hv | ⟨j, hj, hv, hk⟩)
      · exact Or.inl (Or.inl (Or.inl hv))
      · cases j with
        | zero =>
          simp only [List.getD_cons_zero] at hk
          rcases hk with hk | hk
          · exact Or.inl (Or.inl (Or.inr ⟨hk, by omega⟩))
          · exact Or.inl (Or.inr ⟨hk, by omega⟩)
        | succ j' =>
          refine Or.inr ⟨j', by simpa using hj, by omega, ?_⟩
          simpa using hk

lemma bucket_default (k : Position) : (default : MultiMap).bucket k = [] := rfl

/-- Every id in the built endpoint index is in range `[1, n)` and is
registered only under its segment's start or end position. -/
lemma mem_bucket_buildEndpoints {lss : List Line} {k : Position} {v : ℕ}
    (h : v ∈ (buildEndpoints lss).bucket k) :
    1 ≤ v ∧ v < lss.length ∧
      (k = (lss.getD v default).start ∨ k = (lss.getD v default).endPos) := by
  unfold buildEndpoints at h
  rw [mem_bucket_buildAux] at h
  rcases h with h | ⟨j, hj, rfl, hk⟩
  · rw [bucket_default] at h
    cases h
  · have hlen : (lss.drop 1).length = lss.length - 1 := by simp
    have hget : (lss.drop 1).getD j default = lss.getD (1 + j) default := by
      simp only [List.getD_eq_getElem?_getD]
      rw [List.getElem?_drop]
    rw [hget] at hk
    exact ⟨by omega, by omega, hk⟩

/-- The invariant of the endpoint index inside one assembly call: every id
found under a key has that key as its segment's start or end position. -/
def EndpointInv (lss : List Line) (mm : MultiMap) : Prop :=
  ∀ k v, v ∈ mm.bucket k →
    k = (lss.getD v default).start ∨ k = (lss.getD v default).endPos

lemma endpointInv_buildEndpoints (lss : List Line) :
    EndpointInv lss (buildEndpoints lss) :=
  fun _ _ h => (mem_bucket_buildEndpoints h).2.2

lemma consume_fst_eq_get (mm : MultiMap) (k : Position) :
    (mm.consume_one k).1 = mm.get k := by
  unfold MultiMap.consume_one
  cases mm.get k <;> rfl

lemma consume_pair_of_get_some {mm : MultiMap} {k : Position} {x : ℕ}
    (hg : mm.get k = some x) :
    mm.consume_one k =
      (some x, ⟨mm.m.map (fun kb => (kb.1, kb.2.filter (fun v => v != x)))⟩) := by
  unfold MultiMap.consume_one
  rw [hg]

lemma endpointInv_consume {lss : List Line} {mm : MultiMap}
    (hinv : EndpointInv lss mm) (k0 : Position) :
    EndpointInv lss (mm.consume_one k0).2 := by
  intro k v hv
  cases hg : mm.get k0 with
  | none =>
    have hsnd : (mm.consume_one k0).2 = mm := by
      unfold MultiMap.consume_one
      rw [hg]
    rw [hsnd] at hv
    exact hinv k v hv
  | some x =>
    have hpair := consume_pair_of_get_some hg
    have hbucket := bucket_consume_some (k := k)
      (show mm.consume_one k0 = (some x, (mm.consume_one k0).2) by
        rw [hpair])
    rw [hbucket] at hv
    exact hinv k v (List.mem_of_mem_filter hv)

lemma extend_ok_of_endpoint {line t : Line}
    (h : t.start = line.endPos ∨ t.endPos = line.endPos) :
    ∃ line', line.extend t = .ok line' := by
  unfold Line.extend
  by_cases h1 : t.start = line.endPos
  · rw [if_pos h1]
    exact ⟨_, rfl⟩
  · rcases h with h | h
    · exact absurd h h1
    · rw [if_neg h1, if_pos h]
      exact ⟨_, rfl⟩

lemma sum_pos_of_mem {m : List (Position × List ℕ)} {kb : Position × List ℕ}
    (hmem : kb ∈ m) (hne : kb.2 ≠ []) :
    0 < (m.map (fun kb => kb.2.length)).sum := by
  induction m with
  | nil => cases hmem
  | cons kb0 rest ih =>
    simp only [List.map_cons, List.sum_cons]
    rcases List.mem_cons.mp hmem with h | h
    · subst h
      have : 0 < kb.2.length := List.length_pos.mpr hne
      omega
    · have := ih h
      omega

lemma totalCount_pos_of_not_empty {mm : MultiMap} (h : mm.is_empty = false) :
    0 < mm.totalCount := by
  unfold MultiMap.is_empty at h
  rw [Bool.or_eq_false_iff] at h
  obtain ⟨-, h2⟩ := h
  rw [List.all_eq_false] at h2
  obtain ⟨kb, hmem, hne⟩ := h2
  have : kb.2 ≠ [] := by
    intro he
    rw [he] at hne
    simp at hne
  exact sum_pos_of_mem hmem this

lemma assembleLoop_ne_nonContinuous (lss : List Line) :
    ∀ (n : ℕ) (mm : MultiMap) (line : Line), mm.totalCount ≤ n →
      EndpointInv lss mm →
      (assembleLoop lss line mm).1 ≠ .error .nonContinuousPath := by
  intro n
  induction n with
  | zero =>
    intro mm line hcount hinv
    have hempty : mm.is_empty = true := by
      by_contra h
      have := totalCount_pos_of_not_empty (Bool.not_eq_true _ ▸ h)
      omega
    rw [assembleLoop_empty hempty]
    split <;> simp
  | succ n ih =>
    intro mm line hcount hinv
    by_cases hempty : mm.is_empty = true
    · rw [assembleLoop_empty hempty]
      split <;> simp
    · have hemptyf : mm.is_empty = false := by
        rw [Bool.eq_false_iff]
        exact hempty
      cases hc : (mm.consume_one line.endPos).1 with
      | none =>
        rw [assembleLoop_none hemptyf hc]
        simp
      | some i =>
        have hget : mm.get line.endPos = some i := by
          rw [← consume_fst_eq_get]
          exact hc
        have hmem : i ∈ mm.bucket line.endPos := by
          rw [get_eq_bucket_head] at hget
          exact List.mem_of_mem_head? hget
        have hep := hinv line.endPos i hmem
        obtain ⟨line', hline'⟩ :
            ∃ line', line.extend (lss.getD i default) = .ok line' := by
          apply extend_ok_of_endpoint
          rcases hep with hep | hep
          · exact Or.inl hep.symm
          · exact Or.inr hep.symm
        rw [assembleLoop_extend_ok hemptyf hc hline']
        apply ih
        · have hlt := totalCount_lt_of_consume_fst hc
          omega
        · exact endpointInv_consume hinv line.endPos

/-- C4: the non-continuous-path branch of `Line::extend` is unreachable
from `create_continuous_linering`, because whenever `consume_one`, queried
at the working ring's end position over an index satisfying the endpoint
invariant, returns a segment index, that segment's start or end equals the
ring's end. -/
theorem claim_C4 (lss : List Line) :
    create_continuous_linering lss ≠ .error .nonContinuousPath ∧
      ∀ (mm : MultiMap) (line : Line) (i : ℕ), EndpointInv lss mm →
        (mm.consume_one line.endPos).1 = some i →
        (lss.getD i default).start = line.endPos ∨
          (lss.getD i default).endPos = line.endPos := by
  constructor
  · cases lss with
    | nil => simp [create_continuous_linering]
    | cons first rest =>
      show (assembleLoop (first :: rest) first (buildEndpoints (first :: rest))).1 ≠ _
      exact assembleLoop_ne_nonContinuous (first :: rest) _ _ first le_rfl
        (endpointInv_buildEndpoints (first :: rest))
  · intro mm line i hinv hc
    have hget : mm.get line.endPos = some i := by
      rw [← consume_fst_eq_get]
      exact hc
    have hmem : i ∈ mm.bucket line.endPos := by
      rw [get_eq_bucket_head] at hget
      exact List.mem_of_mem_head? hget
    rcases hinv line.endPos i hmem with hep | hep
    · exact Or.inl hep.symm
    · exact Or.inr hep.symm

/-- Concrete two-segment ring input used by witnesses. -/
def wLine1 : Line := ⟨[⟨0, 0⟩, ⟨1, 0⟩], by simp⟩

def wLine2 : Line := ⟨[⟨1, 0⟩, ⟨0, 0⟩], by simp⟩

theorem claim_C4_witness :
    create_continuous_linering [wLine1, wLine2] ≠ .error .nonContinuousPath ∧
      ((([wLine1, wLine2] : List Line).getD 1 default).start = wLine1.endPos ∨
        (([wLine1, wLine2] : List Line).getD 1 default).endPos = wLine1.endPos) :=
  ⟨(claim_C4 [wLine1, wLine2]).1,
    (claim_C4 [wLine1, wLine2]).2 (buildEndpoints [wLine1, wLine2]) wLine1 1
      (endpointInv_buildEndpoints _) (by decide)⟩

/-! ### C2: ring factorizations, the counterexample, and the amended claim -/

/-- Traverse a segment forwards or backwards. -/
def orient (l : Line) (b : Bool) : Line := if b then l.reverse else l

lemma reverse_start (l : Line) : l.reverse.start = l.endPos := by
  show l.pts.reverse.headI = l.pts.getLastD default
  apply headI_reverse
  have := l.two_le
  intro h
  rw [h] at this
  simp at this

lemma reverse_endPos (l : Line) : l.reverse.endPos = l.start := by
  show l.pts.reverse.getLastD default = l.pts.headI
  obtain ⟨x, t, hxt⟩ : ∃ x t, l.pts = x :: t := by
    cases hp : l.pts with
    | nil => have := l.two_le; rw [hp] at this; simp at this
    | cons x t => exact ⟨x, t, rfl⟩
  rw [hxt, getLastD_rev_cons]
  rfl

/-- `IsPath lss a b steps`: the oriented segments listed in `steps` form a
continuous path from `a` to `b`, consecutive endpoints agreeing exactly. -/
inductive IsPath (lss : List Line) : Position → Position → List (ℕ × Bool) → Prop
  | nil (a : Position) : IsPath lss a a []
  | cons {a b c : Position} {ib : ℕ × Bool} {rest : List (ℕ × Bool)}
      (hi : ib.1 < lss.length)
      (hstart : (orient (lss.getD ib.1 default) ib.2).start = a)
      (hend : (orient (lss.getD ib.1 default) ib.2).endPos = b)
      (hrest : IsPath lss b c rest) : IsPath lss a c (ib :: rest)

/-- The point each step of a path departs from. -/
def pathSources (lss : List Line) (steps : List (ℕ × Bool)) : List Position :=
  steps.map (fun ib => (orient (lss.getD ib.1 default) ib.2).start)

/-- The point each step of a path arrives at. -/
def pathTargets (lss : List Line) (steps : List (ℕ × Bool)) : List Position :=
  steps.map (fun ib => (orient (lss.getD ib.1 default) ib.2).endPos)

/-- The hypothesis of the claim as stated: the input factors into exactly
one ring, i.e. some nonempty traversal order and orientation of all the
segments (each used exactly once) forms a closed continuous path. -/
def FactorsIntoOneRing (lss : List Line) : Prop :=
  ∃ (a : Position) (steps : List (ℕ × Bool)), steps ≠ [] ∧
    IsPath lss a a steps ∧ (steps.map Prod.fst).Perm (List.range lss.length)

/-- The counterexample input: `[X,P]`, `[P,X]` and the loop `[P,Y,P]`
factor into the single ring `X-P-Y-P-X`, but the greedy assembler consumes
`[P,X]` first at the junction `P` and then strands the loop. -/
def cxLss : List Line :=
  [⟨[⟨0, 0⟩, ⟨1, 0⟩], by simp⟩,
   ⟨[⟨1, 0⟩, ⟨0, 0⟩], by simp⟩,
   ⟨[⟨1, 0⟩, ⟨2, 0⟩, ⟨1, 0⟩], by simp⟩]

theorem claim_C2_counterexample :
    FactorsIntoOneRing cxLss ∧
      create_continuous_linering cxLss = .error .noMatchingSegment := by
  constructor
  · refine ⟨⟨0, 0⟩, [(0, false), (2, false), (1, false)], by simp, ?_, by decide⟩
    refine IsPath.cons (b := ⟨1, 0⟩) (by decide) (by decide) (by decide) ?_
    refine IsPath.cons (b := ⟨1, 0⟩) (by decide) (by decide) (by decide) ?_
    refine IsPath.cons (b := ⟨0, 0⟩) (by decide) (by decide) (by decide) ?_
    exact IsPath.nil _
  · have h0 : create_continuous_linering cxLss =
        (assembleLoop cxLss ⟨[⟨0, 0⟩, ⟨1, 0⟩], by simp⟩ (buildEndpoints cxLss)).1 := rfl
    rw [h0]
    have hemptyf : (buildEndpoints cxLss).is_empty = false := by decide
    have hc : ((buildEndpoints cxLss).consume_one
        (Line.endPos ⟨[⟨0, 0⟩, ⟨1, 0⟩], by simp⟩)).1 = some 1 := by decide
    have he : Line.extend ⟨[⟨0, 0⟩, ⟨1, 0⟩], by simp⟩ (cxLss.getD 1 default) =
        .ok ⟨[⟨0, 0⟩, ⟨1, 0⟩, ⟨0, 0⟩], by simp⟩ := by rfl
    rw [assembleLoop_extend_ok hemptyf hc he]
    have hempty1 : (((buildEndpoints cxLss).consume_one
        (Line.endPos ⟨[⟨0, 0⟩, ⟨1, 0⟩], by simp⟩)).2).is_empty = false := by decide
    have hc1 : ((((buildEndpoints cxLss).consume_one
        (Line.endPos ⟨[⟨0, 0⟩, ⟨1, 0⟩], by simp⟩)).2).consume_one
        (Line.endPos ⟨[⟨0, 0⟩, ⟨1, 0⟩, ⟨0, 0⟩], by simp⟩)).1 = none := by decide
    rw [assembleLoop_none hempty1 hc1]

/-- Keys of the association list are pairwise distinct (holds for every map
the program builds, since `insert` updates in place). -/
def KeysNodup (mm : MultiMap) : Prop := (mm.m.map Prod.fst).Nodup

lemma mem_keys_insertAux {k : Position} {v : ℕ} :
    ∀ (m : List (Position × List ℕ)) (w : Position),
      w ∈ (insertAux m k v).map Prod.fst ↔ w ∈ m.map Prod.fst ∨ w = k := by
  intro m
  induction m with
  | nil => intro w; simp [insertAux]
  | cons kb rest ih =>
    intro w
    unfold insertAux
    by_cases h0 : kb.1 = k
    · rw [if_pos h0]
      simp only [List.map_cons, List.mem_cons]
      constructor
      · rintro (h | h)
        · exact Or.inl (Or.inl h)
        · exact Or.inl (Or.inr h)
      · rintro ((h | h) | h)
        · exact Or.inl h
        · exact Or.inr h
        · exact Or.inl (h ▸ h0.symm)
    · rw [if_neg h0]
      simp only [List.map_cons, List.mem_cons, ih]
      tauto

lemma keysNodup_insertAux {k : Position} {v : ℕ} :
    ∀ m : List (Position × List ℕ), (m.map Prod.fst).Nodup →
      ((insertAux m k v).map Prod.fst).Nodup := by
  intro m
  induction m with
  | nil =>
    intro _
    simp [insertAux]
  | cons kb rest ih =>
    intro h
    unfold insertAux
    by_cases h0 : kb.1 = k
    · rw [if_pos h0]
      simpa using h
    · rw [if_neg h0]
      simp only [List.map_cons, List.nodup_cons] at h ⊢
      refine ⟨?_, ih h.2⟩
      rw [mem_keys_insertAux]
      rintro (hmem | hmem)
      · exact h.1 hmem
      · exact h0 hmem

lemma keysNodup_insert {mm : MultiMap} (h : KeysNodup mm) (k : Position) (v : ℕ) :
    KeysNodup (mm.insert k v) :=
  keysNodup_insertAux mm.m h

lemma keysNodup_buildAux :
    ∀ (L : List Line) (i0 : ℕ) (mm : MultiMap), KeysNodup mm →
      KeysNodup (buildEndpointsAux L i0 mm) := by
  intro L
  induction L with
  | nil => intro i0 mm h; exact h
  | cons ls rest ih =>
    intro i0 mm h
    exact ih _ _ (keysNodup_insert (keysNodup_insert h _ _) _ _)

lemma keysNodup_buildEndpoints (lss : List Line) :
    KeysNodup (buildEndpoints lss) :=
  keysNodup_buildAux _ 1 default (by simp [KeysNodup, default])

lemma keysNodup_consume {mm : MultiMap} (h : KeysNodup mm) (k : Position) :
    KeysNodup (mm.consume_one k).2 := by
  unfold MultiMap.consume_one
  cases mm.get k with
  | none => exact h
  | some x =>
    show ((mm.m.map _).map Prod.fst).Nodup
    rw [List.map_map]
    exact h

lemma bucket_of_mem_aux :
    ∀ m : List (Position × List ℕ), (m.map Prod.fst).Nodup →
      ∀ kb ∈ m, ((m.find? (fun kb' => kb'.1 == kb.1)).map (fun kb' => kb'.2)).getD [] = kb.2 := by
  intro m
  induction m with
  | nil => intro _ kb h; cases h
  | cons kb0 rest ih =>
    intro hkeys kb hmem
    rcases List.mem_cons.mp hmem with h | h
    · subst h
      rw [List.find?_cons_of_pos _ (by simp)]
      rfl
    · simp only [List.map_cons, List.nodup_cons] at hkeys
      have hne : kb0.1 ≠ kb.1 := by
        intro he
        exact hkeys.1 (he ▸ List.mem_map_of_mem Prod.fst h)
      have hbeq : (kb0.1 == kb.1) = false := beq_eq_false_iff_ne.mpr hne
      rw [List.find?_cons_of_neg _ (by simp [hbeq])]
      exact ih hkeys.2 kb h

lemma bucket_of_mem {mm : MultiMap} (hkeys : KeysNodup mm) :
    ∀ kb ∈ mm.m, mm.bucket kb.1 = kb.2 :=
  fun kb h => bucket_of_mem_aux mm.m hkeys kb h

lemma is_empty_true_of_buckets_nil {mm : MultiMap} (hkeys : KeysNodup mm)
    (h : ∀ k, mm.bucket k = []) : mm.is_empty = true := by
  unfold MultiMap.is_empty
  rw [Bool.or_eq_true]
  right
  rw [List.all_eq_true]
  intro kb hkb
  have := bucket_of_mem hkeys kb hkb
  rw [h kb.1] at this
  simp [← this]

lemma is_empty_false_of_bucket_ne {mm : MultiMap} {k : Position}
    (h : mm.bucket k ≠ []) : mm.is_empty = false := by
  unfold MultiMap.bucket at h
  cases hf : mm.m.find? (fun kb => kb.1 == k) with
  | none => rw [hf] at h; simp at h
  | some kb =>
    rw [hf] at h
    simp only [Option.map_some', Option.getD_some] at h
    have hmem := List.mem_of_find?_eq_some hf
    unfold MultiMap.is_empty
    rw [Bool.or_eq_false_iff]
    constructor
    · rw [List.isEmpty_eq_false_iff_exists_mem]
      exact ⟨kb, hmem⟩
    · rw [List.all_eq_false]
      exact ⟨kb, hmem, by simpa using h⟩

/-- Iff version of the index characterization: an id sits in the bucket of
a key exactly when it is a non-seed index of the input whose segment has
that key as an endpoint. -/
lemma mem_bucket_buildEndpoints_iff (lss : List Line) (k : Position) (v : ℕ) :
    v ∈ (buildEndpoints lss).bucket k ↔
      (1 ≤ v ∧ v < lss.length ∧
        (k = (lss.getD v default).start ∨ k = (lss.getD v default).endPos)) := by
  unfold buildEndpoints
  rw [mem_bucket_buildAux]
  rw [bucket_default]
  simp only [List.not_mem_nil, false_or]
  constructor
  · rintro ⟨j, hj, rfl, hk⟩
    have hget : (lss.drop 1).getD j default = lss.getD (1 + j) default := by
      simp only [List.getD_eq_getElem?_getD]
      rw [List.getElem?_drop]
    rw [hget] at hk
    have hlen : (lss.drop 1).length = lss.length - 1 := by simp
    exact ⟨by omega, by omega, hk⟩
  · rintro ⟨h1, h2, hk⟩
    refine ⟨v - 1, by simp; omega, by omega, ?_⟩
    have hget : (lss.drop 1).getD (v - 1) default = lss.getD (1 + (v - 1)) default := by
      simp only [List.getD_eq_getElem?_getD]
      rw [List.getElem?_drop]
    rw [hget]
    have : 1 + (v - 1) = v := by omega
    rw [this]
    exact hk

lemma orient_endpoints (l : Line) (b : Bool) :
    ((orient l b).start = l.start ∧ (orient l b).endPos = l.endPos) ∨
      ((orient l b).start = l.endPos ∧ (orient l b).endPos = l.start) := by
  cases b with
  | false => exact Or.inl ⟨rfl, rfl⟩
  | true => exact Or.inr ⟨reverse_start l, reverse_endPos l⟩

lemma orient_neg_start (l : Line) (b : Bool) :
    (orient l (!b)).start = (orient l b).endPos := by
  cases b with
  | false => exact reverse_start l
  | true => exact (reverse_endPos l).symm

lemma orient_neg_endPos (l : Line) (b : Bool) :
    (orient l (!b)).endPos = (orient l b).start := by
  cases b with
  | false => exact reverse_endPos l
  | true => exact (reverse_start l).symm

lemma orient_length (l : Line) (b : Bool) :
    (orient l b).pts.length = l.pts.length := by
  cases b with
  | false => rfl
  | true => simp [orient, Line.reverse]

lemma isPath_append {lss : List Line} {a b c : Position}
    {p q : List (ℕ × Bool)} (h1 : IsPath lss a b p) (h2 : IsPath lss b c q) :
    IsPath lss a c (p ++ q) := by
  induction h1 with
  | nil => exact h2
  | cons hi hstart hend _ ih => exact IsPath.cons hi hstart hend (ih h2)

lemma isPath_split {lss : List Line} {a c : Position} :
    ∀ {p q : List (ℕ × Bool)}, IsPath lss a c (p ++ q) →
      ∃ b, IsPath lss a b p ∧ IsPath lss b c q := by
  intro p
  induction p generalizing a with
  | nil => intro q h; exact ⟨a, IsPath.nil a, h⟩
  | cons ib rest ih =>
    intro q h
    cases h with
    | cons hi hstart hend hrest =>
      obtain ⟨m, hm1, hm2⟩ := ih hrest
      exact ⟨m, IsPath.cons hi hstart hend hm1, hm2⟩

/-- Reverse traversal of a path: reversed step order, flipped orientations. -/
def flipSteps (steps : List (ℕ × Bool)) : List (ℕ × Bool) :=
  (steps.map (fun ib => (ib.1, !ib.2))).reverse

lemma isPath_flip {lss : List Line} {a c : Position} {steps : List (ℕ × Bool)}
    (h : IsPath lss a c steps) : IsPath lss c a (flipSteps steps) := by
  induction h with
  | nil => exact IsPath.nil _
  | @cons a' b' c' ib rest hi hstart hend hrest ih =>
    have hfs : flipSteps (ib :: rest) =
        (rest.map (fun ib => (ib.1, !ib.2))).reverse ++ [(ib.1, !ib.2)] := by
      unfold flipSteps
      rw [List.map_cons, List.reverse_cons]
    rw [hfs]
    apply isPath_append ih
    apply IsPath.cons (a := b') (b := a') (by simpa using hi)
    · rw [orient_neg_start]
      exact hend
    · rw [orient_neg_endPos]
      exact hstart
    · exact IsPath.nil _

/-- Chain-link identity: interior sources and targets interleave. -/
lemma isPath_link {lss : List Line} {a c : Position} {steps : List (ℕ × Bool)}
    (h : IsPath lss a c steps) :
    pathSources lss steps ++ [c] = a :: pathTargets lss steps := by
  induction h with
  | nil => rfl
  | @cons a' b' c' ib rest hi hstart hend hrest ih =>
    show ((orient (lss.getD ib.1 default) ib.2).start :: pathSources lss rest) ++ [c'] = _
    rw [List.cons_append, ih, hstart]
    show _ = a' :: (orient (lss.getD ib.1 default) ib.2).endPos :: pathTargets lss rest
    rw [hend]

lemma pathSources_append (lss : List Line) (p q : List (ℕ × Bool)) :
    pathSources lss (p ++ q) = pathSources lss p ++ pathSources lss q := by
  unfold pathSources
  rw [List.map_append]

lemma pathSources_flip (lss : List Line) (steps : List (ℕ × Bool)) :
    pathSources lss (flipSteps steps) = (pathTargets lss steps).reverse := by
  unfold pathSources flipSteps pathTargets
  rw [List.map_reverse, List.map_map]
  congr 1
  apply List.map_congr_left
  intro ib _
  exact orient_neg_start _ _

/-- For a closed nonempty path the targets are the sources rotated by one. -/
lemma pathTargets_closed {lss : List Line} {a : Position} {steps : List (ℕ × Bool)}
    (h : IsPath lss a a steps) (hne : steps ≠ []) :
    pathTargets lss steps = (pathSources lss steps).rotate 1 := by
  have hlink := isPath_link h
  cases hs : pathSources lss steps with
  | nil =>
    exact absurd (by simpa [pathSources] using congrArg List.length hs) hne
  | cons x t =>
    rw [hs] at hlink
    have hx : x = a := by
      have := congrArg (fun l => l.headI) hlink
      simpa using this
    have ht : pathTargets lss steps = t ++ [a] := by
      rw [List.cons_append] at hlink
      injection hlink with h1 h2
      exact h2.symm
    rw [ht, hx]
    exact (List.rotate_cons_succ t a 0).symm ▸ by simp [List.rotate_cons_succ]

lemma isPath_nil_eq {lss : List Line} {a b : Position} (h : IsPath lss a b []) :
    a = b := by
  cases h
  rfl

lemma headI_append_of_ne_nil {α : Type} [Inhabited α] (xs ys : List α)
    (h : xs ≠ []) : (xs ++ ys).headI = xs.headI := by
  cases xs with
  | nil => exact absurd rfl h
  | cons a t => rfl

lemma getLastD_append_of_ne_nil (xs : List Position) :
    ∀ (ys : List Position) (d : Position), ys ≠ [] →
      (xs ++ ys).getLastD d = ys.getLastD d := by
  induction xs with
  | nil => intro ys d _; rfl
  | cons a t ih =>
    intro ys d hys
    show (a :: (t ++ ys)).getLastD d = _
    rw [List.getLastD_cons, ih ys a hys]
    cases ys with
    | nil => exact absurd rfl hys
    | cons b u => exact getLastD_irrel b u a d

lemma getLastD_drop_one {l : List Position} (h : 2 ≤ l.length) (d : Position) :
    (l.drop 1).getLastD d = l.getLastD d := by
  cases l with
  | nil => simp at h
  | cons x t =>
    cases t with
    | nil => simp at h
    | cons b u =>
      show (b :: u).getLastD d = (x :: b :: u).getLastD d
      conv_rhs => rw [List.getLastD_cons]
      exact getLastD_irrel b u d x

lemma mem_targets_of_path {lss : List Line} {b c : Position}
    {rest : List (ℕ × Bool)} (h : IsPath lss b c rest) {w : Position}
    (hw : w ∈ pathTargets lss rest) :
    w ∈ pathSources lss rest ∨ w = c := by
  have hlink := isPath_link h
  cases hs : pathSources lss rest with
  | nil =>
    rw [hs] at hlink
    simp only [List.nil_append] at hlink
    injection hlink with h1 h2
    rw [← h2] at hw
    cases hw
  | cons x t =>
    rw [hs] at hlink
    rw [List.cons_append] at hlink
    injection hlink with h1 h2
    have ht : pathTargets lss rest = t ++ [c] := h2.symm
    rw [ht] at hw
    rcases List.mem_append.mp hw with hw | hw
    · exact Or.inl (List.mem_cons_of_mem _ hw)
    · exact Or.inr (by simpa using hw)

lemma isPath_cons_inv {lss : List Line} {a c : Position} {ib : ℕ × Bool}
    {rest : List (ℕ × Bool)} (h : IsPath lss a c (ib :: rest)) :
    ib.1 < lss.length ∧ (orient (lss.getD ib.1 default) ib.2).start = a ∧
      IsPath lss (orient (lss.getD ib.1 default) ib.2).endPos c rest := by
  cases h with
  | cons hi hstart hend hrest => exact ⟨hi, hstart, hend ▸ hrest⟩

/-- Loop invariant for the amended C2: when the remaining segments chain
from the working ring's end back to its start through pairwise distinct
junctions, and the index holds exactly those ids under exactly their
endpoints, the loop consumes them all and closes the ring. -/
lemma assembleLoop_completes (lss : List Line) :
    ∀ (steps : List (ℕ × Bool)) (line : Line) (mm : MultiMap),
      IsPath lss line.endPos line.start steps →
      (line.start :: pathSources lss steps).Nodup →
      (∀ k v, v ∈ mm.bucket k ↔ (v ∈ steps.map Prod.fst ∧
        (k = (lss.getD v default).start ∨ k = (lss.getD v default).endPos))) →
      (steps.map Prod.fst).Nodup →
      KeysNodup mm →
      ∃ r : Line, (assembleLoop lss line mm).1 = .ok r ∧
        r.pts.length = line.pts.length +
          (steps.map (fun ib => (lss.getD ib.1 default).pts.length - 1)).sum ∧
        r.start = line.start ∧ r.endPos = line.start := by
  intro steps
  induction steps with
  | nil =>
    intro line mm hpath hnodup hinv hidx hkeys
    have hclose : line.endPos = line.start := isPath_nil_eq hpath
    have hbuckets : ∀ k, mm.bucket k = [] := by
      intro k
      rw [List.eq_nil_iff_forall_not_mem]
      intro v hv
      have := (hinv k v).mp hv
      simp at this
    have hempty := is_empty_true_of_buckets_nil hkeys hbuckets
    rw [assembleLoop_empty hempty, if_pos hclose.symm]
    exact ⟨line, rfl, by simp, rfl, hclose⟩
  | cons s0 rest ih =>
    intro line mm hpath hnodup hinv hidx hkeys
    obtain ⟨hi, hstart, hrest⟩ := isPath_cons_inv hpath
    set seg := lss.getD s0.1 default with hseg
    set org := orient seg s0.2 with horg
    -- structure of the Nodup hypothesis
    have hsrc_cons : pathSources lss (s0 :: rest) = line.endPos :: pathSources lss rest := by
      show (orient (lss.getD s0.1 default) s0.2).start :: _ = _
      rw [← hseg, ← horg, hstart]
      rfl
    rw [hsrc_cons] at hnodup
    have hne_se : line.start ≠ line.endPos := by
      have := List.rel_of_pairwise_cons hnodup (List.mem_cons_self _ _)
      exact this
    have hnodup_tail := List.nodup_cons.mp hnodup
    have hnodup_tail2 := List.nodup_cons.mp hnodup_tail.2
    have hnotin_end : line.endPos ∉ pathSources lss rest := hnodup_tail2.1
    have hnotin_start : line.start ∉ pathSources lss rest := by
      intro hmem
      exact hnodup_tail.1 (List.mem_cons_of_mem _ hmem)
    -- targets of the remaining chain avoid the current end
    have htarget_ne : ∀ w ∈ pathTargets lss rest, w ≠ line.endPos := by
      intro w hw
      rcases mem_targets_of_path hrest hw with h | h
      · intro he
        rw [he] at h
        exact hnotin_end h
      · intro he
        exact hne_se (h.symm.trans he)
    -- the only id in the bucket at the current end is s0.1
    have huniq : ∀ v ∈ mm.bucket line.endPos, v = s0.1 := by
      intro v hv
      obtain ⟨hvmem, hvmatch⟩ := (hinv line.endPos v).mp hv
      rw [List.map_cons] at hvmem
      rcases List.mem_cons.mp hvmem with hv0 | hvrest
      · exact hv0
      · exfalso
        obtain ⟨ib, hib, hibfst⟩ := List.mem_map.mp hvrest
        have hsrcmem : (orient (lss.getD ib.1 default) ib.2).start ∈ pathSources lss rest :=
          List.mem_map_of_mem _ hib
        have htgtmem : (orient (lss.getD ib.1 default) ib.2).endPos ∈ pathTargets lss rest :=
          List.mem_map_of_mem _ hib
        rw [hibfst] at hsrcmem htgtmem
        rcases hvmatch with hx | hx
        · rcases orient_endpoints (lss.getD v default) ib.2 with ⟨ho1, ho2⟩ | ⟨ho1, ho2⟩
          · rw [← ho1] at hx
            rw [← hx] at hsrcmem
            exact hnotin_end hsrcmem
          · rw [← ho2] at hx
            exact htarget_ne _ htgtmem hx.symm
        · rcases orient_endpoints (lss.getD v default) ib.2 with ⟨ho1, ho2⟩ | ⟨ho1, ho2⟩
          · rw [← ho2] at hx
            exact htarget_ne _ htgtmem hx.symm
          · rw [← ho1] at hx
            rw [← hx] at hsrcmem
            exact hnotin_end hsrcmem
    -- the bucket does contain s0.1
    have hmem0 : s0.1 ∈ mm.bucket line.endPos := by
      apply (hinv line.endPos s0.1).mpr
      refine ⟨by simp, ?_⟩
      rcases orient_endpoints seg s0.2 with ⟨ho1, -⟩ | ⟨ho1, -⟩
      · left
        rw [← hseg, ← ho1, ← horg, hstart]
      · right
        rw [← hseg, ← ho1, ← horg, hstart]
    have hbucket_ne : mm.bucket line.endPos ≠ [] := by
      intro h
      rw [h] at hmem0
      cases hmem0
    have hget : mm.get line.endPos = some s0.1 := by
      rw [get_eq_bucket_head]
      cases hb : mm.bucket line.endPos with
      | nil => exact absurd hb hbucket_ne
      | cons w ws =>
        have : w = s0.1 := huniq w (by rw [hb]; exact List.mem_cons_self _ _)
        rw [this]
        rfl
    have hemptyf : mm.is_empty = false := is_empty_false_of_bucket_ne hbucket_ne
    have hcfst : (mm.consume_one line.endPos).1 = some s0.1 := by
      rw [consume_fst_eq_get]
      exact hget
    -- the splice
    have hnxt_ne : org.endPos ≠ line.endPos := by
      have hlink := isPath_link hrest
      cases hsr : pathSources lss rest with
      | nil =>
        rw [hsr] at hlink
        simp only [List.nil_append] at hlink
        injection hlink with h1 _h2
        rw [← h1]
        exact hne_se
      | cons x t =>
        rw [hsr] at hlink
        rw [List.cons_append] at hlink
        injection hlink with h1 _h2
        rw [← h1]
        intro he
        apply hnotin_end
        rw [← he, hsr]
        exact List.mem_cons_self _ _
    have hext : ∃ line' : Line, line.extend seg = .ok line' ∧
        line'.pts = line.pts ++ org.pts.drop 1 := by
      cases hb : s0.2 with
      | false =>
        have hs : seg.start = line.endPos := by
          rw [← hstart, horg, hb]
          rfl
        have horgpts : org.pts = seg.pts := by
          rw [horg, hb]
          rfl
        refine ⟨⟨line.pts ++ seg.pts.drop 1, ?_⟩, ?_, ?_⟩
        · have := line.two_le
          simp only [List.length_append]
          omega
        · unfold Line.extend
          rw [if_pos hs]
        · show line.pts ++ seg.pts.drop 1 = line.pts ++ org.pts.drop 1
          rw [horgpts]
      | true =>
        have horg' : org = seg.reverse := by rw [horg, hb]; rfl
        have hs : seg.endPos = line.endPos := by
          rw [← hstart, horg']
          exact (reverse_start seg).symm
        have hns : seg.start ≠ line.endPos := by
          have hso : seg.start = org.endPos := by
            rw [horg']
            exact (reverse_endPos seg).symm
          rw [hso]
          exact hnxt_ne
        refine ⟨⟨line.pts ++ seg.pts.reverse.drop 1, ?_⟩, ?_, ?_⟩
        · have := line.two_le
          simp only [List.length_append]
          omega
        · unfold Line.extend
          rw [if_neg hns, if_pos hs]
        · show line.pts ++ seg.pts.reverse.drop 1 = line.pts ++ org.pts.drop 1
          rw [horg']
          rfl
    obtain ⟨line', hline', hpts'⟩ := hext
    have horg_len : 2 ≤ org.pts.length := org.two_le
    have hdrop_ne : org.pts.drop 1 ≠ [] := by
      intro h
      have := congrArg List.length h
      simp at this
      omega
    have hstart' : line'.start = line.start := by
      show line'.pts.headI = line.pts.headI
      rw [hpts']
      apply headI_append_of_ne_nil
      intro h
      have := line.two_le
      rw [h] at this
      simp at this
    have hend' : line'.endPos = org.endPos := by
      show line'.pts.getLastD default = org.endPos
      rw [hpts', getLastD_append_of_ne_nil _ _ _ hdrop_ne, getLastD_drop_one horg_len]
      rfl
    have hlen' : line'.pts.length = line.pts.length + (seg.pts.length - 1) := by
      rw [hpts']
      rw [List.length_append, List.length_drop]
      have := orient_length seg s0.2
      rw [← horg] at this
      omega
    -- the new index state
    have hpair : mm.consume_one line.endPos =
        (some s0.1, (mm.consume_one line.endPos).2) := by
      rw [consume_pair_of_get_some hget]
    have hbuck' := fun k => bucket_consume_some hpair k
    have hidx' : (s0.1 :: rest.map Prod.fst).Nodup := by
      rw [List.map_cons] at hidx
      exact hidx
    have hs0_notin : s0.1 ∉ rest.map Prod.fst := (List.nodup_cons.mp hidx').1
    have hinv' : ∀ k v, v ∈ ((mm.consume_one line.endPos).2).bucket k ↔
        (v ∈ rest.map Prod.fst ∧
          (k = (lss.getD v default).start ∨ k = (lss.getD v default).endPos)) := by
      intro k v
      rw [hbuck' k, List.mem_filter]
      rw [hinv k v]
      simp only [List.map_cons, List.mem_cons, bne_iff_ne, ne_eq]
      constructor
      · rintro ⟨⟨hv1 | hv1, hv2⟩, hv3⟩
        · exact absurd hv1 hv3
        · exact ⟨hv1, hv2⟩
      · rintro ⟨hv1, hv2⟩
        refine ⟨⟨Or.inr hv1, hv2⟩, ?_⟩
        intro he
        rw [he] at hv1
        exact hs0_notin hv1
    -- recurse
    have hpath' : IsPath lss line'.endPos line'.start rest := by
      rw [hstart', hend']
      exact hrest
    have hnodup' : (line'.start :: pathSources lss rest).Nodup := by
      rw [hstart']
      exact List.nodup_cons.mpr ⟨hnotin_start, hnodup_tail2.2⟩
    obtain ⟨r, hr1, hr2, hr3, hr4⟩ := ih line' (mm.consume_one line.endPos).2
      hpath' hnodup' hinv' (List.nodup_cons.mp hidx').2
      (keysNodup_consume hkeys _)
    refine ⟨r, ?_, ?_, ?_, ?_⟩
    · rw [assembleLoop_extend_ok hemptyf hcfst (hseg ▸ hline')]
      exact hr1
    · rw [hr2, hlen']
      rw [List.map_cons, List.sum_cons]
      have h2 := seg.two_le
      rw [← hseg]
      omega
    · rw [hr3, hstart']
    · rw [hr4, hstart']

lemma range_map_getD :
    ∀ lss : List Line,
      (List.range lss.length).map (fun i => lss.getD i default) = lss := by
  intro lss
  induction lss with
  | nil => rfl
  | cons x t ih =>
    show (List.range (t.length + 1)).map (fun i => (x :: t).getD i default) = x :: t
    rw [List.range_succ_eq_map, List.map_cons, List.map_map]
    congr 1

lemma sum_sub_ones :
    ∀ xs : List ℕ, (∀ x ∈ xs, 1 ≤ x) →
      (xs.map (fun x => x - 1)).sum + xs.length = xs.sum := by
  intro xs
  induction xs with
  | nil => intro _; rfl
  | cons x t ih =>
    intro h
    have hx := h x (List.mem_cons_self _ _)
    have ht := ih (fun y hy => h y (List.mem_cons_of_mem _ hy))
    simp only [List.map_cons, List.sum_cons, List.length_cons]
    omega

/-- C2 (amended): if the input factors into exactly one ring whose junction
points are pairwise distinct, assembly succeeds, the ring's point count is
the sum of the segment point counts minus (segment count - 1), and the
ring closes. -/
theorem claim_C2 (lss : List Line)
    (h : ∃ (a : Position) (steps : List (ℕ × Bool)), steps ≠ [] ∧
      IsPath lss a a steps ∧ (steps.map Prod.fst).Perm (List.range lss.length) ∧
      (pathSources lss steps).Nodup) :
    ∃ r : Line, create_continuous_linering lss = .ok r ∧
      r.pts.length = (lss.map (fun l => l.pts.length)).sum - (lss.length - 1) ∧
      r.start = r.endPos := by
  obtain ⟨a, steps, hne, hpath, hperm, hnds⟩ := h
  -- step with index 0, flipped forwards if needed
  have key : ∃ (a₁ : Position) (steps₁ : List (ℕ × Bool)), IsPath lss a₁ a₁ steps₁ ∧
      (steps₁.map Prod.fst).Perm (List.range lss.length) ∧
      (pathSources lss steps₁).Nodup ∧ (0, false) ∈ steps₁ := by
    have hlen : steps.length = lss.length := by
      have := hperm.length_eq
      simpa using this
    have hn1 : 1 ≤ lss.length := by
      cases hsteps : steps with
      | nil => exact absurd hsteps hne
      | cons s t => rw [hsteps] at hlen; simp at hlen; omega
    have h0mem : (0 : ℕ) ∈ steps.map Prod.fst :=
      hperm.mem_iff.mpr (List.mem_range.mpr (by omega))
    obtain ⟨s0, hs0mem, hs0fst⟩ := List.mem_map.mp h0mem
    cases hflag : s0.2 with
    | false =>
      refine ⟨a, steps, hpath, hperm, hnds, ?_⟩
      have hs0 : (0, false) = s0 := by
        rw [← hs0fst, ← hflag]
      rw [hs0]
      exact hs0mem
    | true =>
      refine ⟨a, flipSteps steps, isPath_flip hpath, ?_, ?_, ?_⟩
      · have hmap : (flipSteps steps).map Prod.fst = (steps.map Prod.fst).reverse := by
          unfold flipSteps
          rw [List.map_reverse, List.map_map]
          rfl
        rw [hmap]
        exact (List.reverse_perm _).trans hperm
      · rw [pathSources_flip]
        rw [List.nodup_reverse]
        rw [pathTargets_closed hpath hne]
        exact ((List.rotate_perm (pathSources lss steps) 1).symm).nodup hnds
      · unfold flipSteps
        rw [List.mem_reverse]
        have hs0 : (0, false) = (fun ib : ℕ × Bool => (ib.1, !ib.2)) s0 := by
          show (0, false) = (s0.1, !s0.2)
          rw [hs0fst, hflag]
          rfl
        rw [hs0]
        exact List.mem_map_of_mem _ hs0mem
  obtain ⟨a₁, steps₁, hpath₁, hperm₁, hnds₁, hmem01⟩ := key
  -- degenerate empty input is impossible
  cases lss with
  | nil =>
    exfalso
    have h0 := hperm₁.length_eq
    simp only [List.length_map, List.length_nil, List.range_zero] at h0
    rw [List.length_eq_zero.mp h0] at hmem01
    cases hmem01
  | cons first rest0 =>
  -- rotate the 0-step to the front
  obtain ⟨u, v, huv⟩ := List.append_of_mem hmem01
  rw [huv] at hpath₁ hperm₁ hnds₁
  obtain ⟨m, hu, hv⟩ := isPath_split hpath₁
  have hrot : IsPath (first :: rest0) m m (((0, false) :: v) ++ u) :=
    isPath_append hv hu
  have hperm₂ : ((((0, false) :: v) ++ u).map Prod.fst).Perm
      (List.range (first :: rest0).length) := by
    refine List.Perm.trans ?_ hperm₁
    rw [List.map_append, List.map_append]
    exact List.perm_append_comm
  have hnds₂ : (pathSources (first :: rest0) (((0, false) :: v) ++ u)).Nodup := by
    have hp : (pathSources (first :: rest0) (u ++ (0, false) :: v)).Perm
        (pathSources (first :: rest0) (((0, false) :: v) ++ u)) := by
      rw [pathSources_append, pathSources_append]
      exact List.perm_append_comm
    exact hp.nodup hnds₁
  -- unpack the head step: it is the seed traversed forwards
  obtain ⟨hi0, hstart0, hrest0⟩ := isPath_cons_inv hrot
  have hgetD0 : (first :: rest0).getD (0, false).1 default = first := rfl
  have horient0 : orient first false = first := rfl
  rw [hgetD0, horient0] at hstart0 hrest0
  -- index facts
  have hmapsteps : ((((0, false) :: v) ++ u).map Prod.fst) =
      0 :: ((v ++ u).map Prod.fst) := by
    rw [List.cons_append, List.map_cons]
  rw [hmapsteps] at hperm₂
  have hnodup_all : (0 :: ((v ++ u).map Prod.fst)).Nodup :=
    hperm₂.symm.nodup (List.nodup_range _)
  have h0notin : (0 : ℕ) ∉ (v ++ u).map Prod.fst := (List.nodup_cons.mp hnodup_all).1
  have hidx : ((v ++ u).map Prod.fst).Nodup := (List.nodup_cons.mp hnodup_all).2
  have hmem_iff : ∀ w : ℕ, w ∈ (v ++ u).map Prod.fst ↔ (1 ≤ w ∧ w < (first :: rest0).length) := by
    intro w
    constructor
    · intro hw
      have hw' : w ∈ (0 :: ((v ++ u).map Prod.fst)) := List.mem_cons_of_mem _ hw
      have := hperm₂.mem_iff.mp hw'
      rw [List.mem_range] at this
      have hw0 : w ≠ 0 := by
        intro he
        rw [he] at hw
        exact h0notin hw
      omega
    · rintro ⟨h1, h2⟩
      have : w ∈ (0 :: ((v ++ u).map Prod.fst)) :=
        hperm₂.mem_iff.mpr (List.mem_range.mpr h2)
      rcases List.mem_cons.mp this with he | hmem
      · omega
      · exact hmem
  have hinv : ∀ (k : Position) (w : ℕ),
      w ∈ (buildEndpoints (first :: rest0)).bucket k ↔
        (w ∈ (v ++ u).map Prod.fst ∧
          (k = ((first :: rest0).getD w default).start ∨
            k = ((first :: rest0).getD w default).endPos)) := by
    intro k w
    rw [mem_bucket_buildEndpoints_iff, hmem_iff]
    tauto
  -- the source-distinctness hypothesis in the form the loop needs
  have hsrc_head : pathSources (first :: rest0) (((0, false) :: v) ++ u) =
      first.start :: pathSources (first :: rest0) (v ++ u) := by
    show (orient ((first :: rest0).getD 0 default) false).start :: _ = _
    rw [show (first :: rest0).getD 0 default = first from rfl, horient0]
    rfl
  rw [hsrc_head] at hnds₂
  -- run the loop
  have hm : m = first.start := hstart0.symm
  rw [hm] at hrest0
  obtain ⟨r, hok, hlen, hrs, hre⟩ :=
    assembleLoop_completes (first :: rest0) (v ++ u) first
      (buildEndpoints (first :: rest0)) hrest0 hnds₂ hinv hidx
      (keysNodup_buildEndpoints _)
  refine ⟨r, ?_, ?_, ?_⟩
  · exact hok
  · -- length arithmetic
    have hsum1 : ((v ++ u).map (fun ib => (((first :: rest0).getD ib.1 default)).pts.length - 1)).sum =
        (((v ++ u).map Prod.fst).map (fun i => (((first :: rest0).getD i default)).pts.length - 1)).sum := by
      rw [List.map_map]
      rfl
    have hntl : (first :: rest0).length = rest0.length + 1 := by simp
    have hperm3 : ((v ++ u).map Prod.fst).Perm ((List.range rest0.length).map Nat.succ) := by
      apply List.Perm.cons_inv (a := 0)
      refine hperm₂.trans ?_
      rw [hntl, List.range_succ_eq_map]
    have hsum2 : (((v ++ u).map Prod.fst).map (fun i => (((first :: rest0).getD i default)).pts.length - 1)).sum =
        (((List.range rest0.length).map Nat.succ).map (fun i => (((first :: rest0).getD i default)).pts.length - 1)).sum :=
      List.Perm.sum_eq (List.Perm.map _ hperm3)
    have hsum3 : (((List.range rest0.length).map Nat.succ).map (fun i => (((first :: rest0).getD i default)).pts.length - 1)).sum =
        ((List.range rest0.length).map (fun i => (rest0.getD i default).pts.length - 1)).sum := by
      rw [List.map_map]
      congr 1
    -- total length of the input
    have htotal : ((first :: rest0).map (fun l => l.pts.length)).sum =
        first.pts.length + ((List.range rest0.length).map (fun i => (rest0.getD i default).pts.length)).sum := by
      have := congrArg (fun L => (L.map (fun l : Line => l.pts.length)).sum) (range_map_getD rest0)
      simp only at this
      rw [List.map_cons, List.sum_cons]
      rw [← this]
      rw [List.map_map]
      rfl
    have hones : ∀ x ∈ (List.range rest0.length).map (fun i => (rest0.getD i default).pts.length), 1 ≤ x := by
      intro x hx
      obtain ⟨i, -, rfl⟩ := List.mem_map.mp hx
      have := (rest0.getD i default).two_le
      omega
    have hfin : ((List.range rest0.length).map (fun i => (rest0.getD i default).pts.length - 1)).sum +
        rest0.length = ((List.range rest0.length).map (fun i => (rest0.getD i default).pts.length)).sum := by
      have hX : (List.range rest0.length).map (fun i => (rest0.getD i default).pts.length - 1) =
          ((List.range rest0.length).map (fun i => (rest0.getD i default).pts.length)).map
            (fun x => x - 1) := by
        rw [List.map_map]
        rfl
      have hL : rest0.length =
          ((List.range rest0.length).map (fun i => (rest0.getD i default).pts.length)).length := by
        simp
      rw [hX]
      nth_rewrite 2 [hL]
      exact sum_sub_ones _ hones
    rw [hlen, hsum1, hsum2, hsum3]
    rw [htotal]
    have h2 := first.two_le
    simp only [List.length_cons]
    omega
  · rw [hrs, hre]

theorem claim_C2_witness :
    ∃ r : Line, create_continuous_linering [wLine1, wLine2] = .ok r ∧
      r.pts.length = (([wLine1, wLine2] : List Line).map (fun l => l.pts.length)).sum -
        (([wLine1, wLine2] : List Line).length - 1) ∧
      r.start = r.endPos :=
  claim_C2 [wLine1, wLine2]
    ⟨⟨0, 0⟩, [(0, false), (1, false)], by simp,
      IsPath.cons (b := ⟨1, 0⟩) (by decide) (by decide) (by decide)
        (IsPath.cons (b := ⟨0, 0⟩) (by decide) (by decide) (by decide)
          (IsPath.nil _)),
      by decide, by decide⟩

/-! ### C10: the older assembler from `geojson.rs` and its equivalence -/

namespace Geojson

/-- `entry(key).or_default().push(i)` on the `HashMap<FloatTuple, Vec<usize>>`
endpoint index of `geojson.rs`, modelled as an association list. -/
def push : List (Position × List ℕ) → Position → ℕ → List (Position × List ℕ)
  | [], k, v => [(k, [v])]
  | kb :: rest, k, v =>
    if kb.1 = k then (kb.1, kb.2 ++ [v]) :: rest
    else kb :: push rest k v

/-- `endpoints.get(&key)`: the bucket for a key, when the key is present. -/
def getBucket (m : List (Position × List ℕ)) (k : Position) : Option (List ℕ) :=
  (m.find? (fun kb => kb.1 == k)).map (fun kb => kb.2)

/-- Bucket with the empty default, for stating the state relation. -/
def bucket (m : List (Position × List ℕ)) (k : Position) : List ℕ :=
  (getBucket m k).getD []

/-- The index-building loop of `geojson.rs`: every linestring (index 0
included) is pushed under its start, and under its end when distinct. -/
def buildAux : List (List Position) → ℕ → List (Position × List ℕ) →
    List (Position × List ℕ)
  | [], _, m => m
  | ls :: rest, i, m =>
    let s := ls.headI
    let e := ls.getLastD default
    let m1 := push m s i
    let m2 := if s ≠ e then push m1 e i else m1
    buildAux rest (i + 1) m2

def build (lss : List (List Position)) : List (Position × List ℕ) :=
  buildAux lss 0 []

end Geojson

namespace Geojson

/-- The assembly loop of `geojson.rs` `create_continuous_linering`: the
index keeps every id; already-used ids are skipped via the `used` set, and
the loop runs while fewer than all linestrings are used. -/
def loop (lss : List (List Position)) (m : List (Position × List ℕ))
    (line : List Position) (used : Finset ℕ) : Except String (List Position) :=
  if h : lss.length ≤ used.card then
    (if line.head? = line.getLast? then .ok line
     else .error "Ends of the linestrings don't form a ring")
  else
    match getBucket m (line.getLastD default) with
    | none => .error "No more matching linestrings found"
    | some idxs =>
      let f := idxs.find? (fun i => decide (i ∉ used))
      if hf : f.isSome then
        let next := f.get hf
        let nl := lss.getD next []
        if line.getLastD default = nl.headI then
          loop lss m (line ++ nl.drop 1) (insert next used)
        else if line.getLastD default = nl.getLastD default then
          loop lss m (line ++ nl.dropLast.reverse) (insert next used)
        else .error "Linestrings do not form a continuous path"
      else .error "No matching linestring found"
termination_by lss.length - used.card
decreasing_by
  all_goals
    have hnext : next ∉ used := by
      have hx := Option.some_get hf
      have hp := List.find?_some hx.symm
      exact of_decide_eq_true hp
  all_goals
    have hcard : used.card < lss.length := Nat.lt_of_not_le h
  all_goals
    rw [Finset.card_insert_of_not_mem hnext]
  all_goals
    omega

/-- `create_continuous_linering` from `geojson.rs`. -/
def create_continuous_linering (linestrings : List (List Position)) :
    Except String (List Position) :=
  if linestrings.isEmpty || linestrings.any (fun ls => ls.length < 2) then
    .error "No linestrings or a linestring has less than 2 positions"
  else
    loop linestrings (build linestrings) (linestrings.getD 0 []) {0}

end Geojson

lemma find?_eq_head?_filter (l : List ℕ) (p : ℕ → Bool) :
    l.find? p = (l.filter p).head? := by
  induction l with
  | nil => rfl
  | cons x t ih =>
    by_cases hx : p x = true
    · rw [List.find?_cons_of_pos _ hx, List.filter_cons_of_pos hx]
      rfl
    · rw [List.find?_cons_of_neg _ (by simpa using hx),
        List.filter_cons_of_neg (by simpa using hx)]
      exact ih

lemma reverse_drop_one (l : List Position) :
    l.reverse.drop 1 = l.dropLast.reverse := by
  cases hl : l.reverse with
  | nil =>
    have : l = [] := by simpa using congrArg List.reverse hl
    rw [this]
    rfl
  | cons x t =>
    have hle : l = t.reverse ++ [x] := by
      have hh := congrArg List.reverse hl
      rw [List.reverse_reverse] at hh
      rw [hh, List.reverse_cons]
    rw [hle, List.dropLast_concat, List.reverse_reverse]
    rfl

lemma is_empty_buckets_nil {mm : MultiMap} (h : mm.is_empty = true) :
    ∀ k, mm.bucket k = [] := by
  intro k
  unfold MultiMap.is_empty at h
  rw [Bool.or_eq_true] at h
  unfold MultiMap.bucket
  cases hf : mm.m.find? (fun kb => kb.1 == k) with
  | none => rfl
  | some kb =>
    have hmem := List.mem_of_find?_eq_some hf
    rcases h with h | h
    · rw [List.isEmpty_iff] at h
      rw [h] at hmem
      cases hmem
    · rw [List.all_eq_true] at h
      have := h kb hmem
      simp only [List.isEmpty_iff] at this
      simp [this]

namespace Geojson

lemma bucket_push (m : List (Position × List ℕ)) (k0 : Position) (v : ℕ)
    (k : Position) :
    bucket (push m k0 v) k =
      if k = k0 then bucket m k0 ++ [v] else bucket m k := by
  unfold bucket getBucket
  induction m with
  | nil =>
    by_cases hk : k = k0
    · subst hk
      simp [push, List.find?]
    · have hbeq : (k0 == k) = false := beq_eq_false_iff_ne.mpr (Ne.symm hk)
      simp [push, List.find?, hbeq, hk]
  | cons kb rest ih =>
    show ((List.find? _ (push (kb :: rest) k0 v)).map _).getD [] = _
    unfold push
    by_cases h0 : kb.1 = k0
    · rw [if_pos h0]
      by_cases hk : k = k0
      · subst hk
        have : (kb.1 == k) = true := beq_iff_eq.mpr h0
        simp [List.find?, this, h0]
      · have hne : (kb.1 == k) = false := by
          apply beq_eq_false_iff_ne.mpr
          rw [h0]
          exact fun hh => hk hh.symm
        rw [if_neg hk]
        simp [List.find?, hne]
    · rw [if_neg h0]
      by_cases hk1 : kb.1 = k
      · have hbeq : (kb.1 == k) = true := beq_iff_eq.mpr hk1
        have hkk0 : ¬(k = k0) := by
          intro hh
          exact h0 (hk1.trans hh)
        rw [if_neg hkk0]
        simp [List.find?, hbeq]
      · have hbeq : (kb.1 == k) = false := beq_eq_false_iff_ne.mpr hk1
        have hbeq0 : (kb.1 == k0) = false := beq_eq_false_iff_ne.mpr h0
        simp only [List.find?, hbeq, hbeq0]
        exact ih

lemma mem_bucket_buildAuxJ :
    ∀ (L : List (List Position)) (i0 : ℕ) (m : List (Position × List ℕ))
      (k : Position) (v : ℕ),
      v ∈ bucket (buildAux L i0 m) k ↔
        v ∈ bucket m k ∨ ∃ j, j < L.length ∧ v = i0 + j ∧
          (k = (L.getD j []).headI ∨ k = (L.getD j []).getLastD default) := by
  intro L
  induction L with
  | nil =>
    intro i0 m k v
    simp [buildAux]
  | cons ls rest ih =>
    intro i0 m k v
    show v ∈ bucket (buildAux rest (i0 + 1) _) k ↔ _
    rw [ih]
    have hstep : ∀ w, w ∈ bucket
        (if ls.headI ≠ ls.getLastD default
          then push (push m ls.headI i0) (ls.getLastD default) i0
          else push m ls.headI i0) k ↔
        (w ∈ bucket m k ∨ (k = ls.headI ∧ w = i0) ∨
          (k = ls.getLastD default ∧ w = i0)) := by
      intro w
      by_cases hse : ls.headI ≠ ls.getLastD default
      · rw [if_pos hse, bucket_push]
        by_cases h1 : k = ls.getLastD default
        · rw [if_pos h1, bucket_push,
            if_neg (show ¬(ls.getLastD default = ls.headI) from fun hh => hse hh.symm)]
          by_cases h2 : k = ls.headI
          · exact absurd (h2.symm.trans h1) hse
          · simp [h1, h2]
            tauto
        · rw [if_neg h1, bucket_push]
          by_cases h2 : k = ls.headI
          · rw [if_pos h2]
            simp [h1, h2]
            tauto
          · rw [if_neg h2]
            have h1' : ¬(k = ls.getLast?.getD default) := by
              simpa [List.getLastD_eq_getLast?] using h1
            simp [h1', h2]
      · rw [if_neg hse, bucket_push]
        have hse' : ls.headI = ls.getLastD default := not_ne_iff.mp hse
        by_cases h2 : k = ls.headI
        · rw [if_pos h2]
          simp [h2, ← hse']
          tauto
        · rw [if_neg h2]
          have h1 : ¬(k = ls.getLastD default) := by
            rw [← hse']
            exact h2
          have h1' : ¬(k = ls.getLast?.getD default) := by
            simpa [List.getLastD_eq_getLast?] using h1
          simp [h1', h2]
    rw [hstep]
    constructor
    · rintro ((hv | ⟨hk, hv⟩ | ⟨hk, hv⟩) | ⟨j, hj, hv, hk⟩)
      · exact Or.inl hv
      · exact Or.inr ⟨0, by simp, by omega, by simp [hk]⟩
      · exact Or.inr ⟨0, by simp, by omega, by simp [hk]⟩
      · refine Or.inr ⟨j + 1, by simpa using hj, by omega, ?_⟩
        simpa using hk
    · rintro (hv | ⟨j, hj, hv, hk⟩)
      · exact Or.inl (Or.inl hv)
      · cases j with
        | zero =>
          simp only [List.getD_cons_zero] at hk
          rcases hk with hk | hk
          · exact Or.inl (Or.inr (Or.inl ⟨hk, by omega⟩))
          · exact Or.inl (Or.inr (Or.inr ⟨hk, by omega⟩))
        | succ j' =>
          refine Or.inr ⟨j', by simpa using hj, by omega, ?_⟩
          simpa using hk

lemma mem_bucket_build (lss : List (List Position)) (k : Position) (v : ℕ) :
    v ∈ bucket (build lss) k ↔
      v < lss.length ∧
        (k = (lss.getD v []).headI ∨ k = (lss.getD v []).getLastD default) := by
  unfold build
  rw [mem_bucket_buildAuxJ]
  constructor
  · rintro (h | ⟨j, hj, rfl, hk⟩)
    · simp [bucket, getBucket, List.find?] at h
    · exact ⟨by omega, by simpa using hk⟩
  · rintro ⟨h1, hk⟩
    exact Or.inr ⟨v, h1, by omega, by simpa using hk⟩

end Geojson

lemma bucketInsert_append_of_lt {b : List ℕ} {v : ℕ} (h : ∀ x ∈ b, x < v) :
    bucketInsert b v = b ++ [v] := by
  induction b with
  | nil => rfl
  | cons x xs ih =>
    have hx := h x (List.mem_cons_self _ _)
    unfold bucketInsert
    rw [if_neg (by omega), if_neg (by omega)]
    rw [ih (fun y hy => h y (List.mem_cons_of_mem _ hy))]
    rfl

lemma bucketInsert_idem_of_lt {b : List ℕ} {v : ℕ} (h : ∀ x ∈ b, x < v) :
    bucketInsert (b ++ [v]) v = b ++ [v] := by
  induction b with
  | nil =>
    show bucketInsert [v] v = [v]
    unfold bucketInsert
    rw [if_neg (by omega), if_pos rfl]
  | cons x xs ih =>
    have hx := h x (List.mem_cons_self _ _)
    show bucketInsert (x :: (xs ++ [v])) v = _
    unfold bucketInsert
    rw [if_neg (by omega), if_neg (by omega)]
    rw [ih (fun y hy => h y (List.mem_cons_of_mem _ hy))]
    rfl

lemma mem_bucket_push {mj : List (Position × List ℕ)} {k0 k : Position}
    {w v : ℕ} :
    v ∈ Geojson.bucket (Geojson.push mj k0 w) k ↔
      v ∈ Geojson.bucket mj k ∨ (k = k0 ∧ v = w) := by
  rw [Geojson.bucket_push]
  by_cases hk : k = k0
  · subst hk
    rw [if_pos rfl]
    simp
  · rw [if_neg hk]
    simp [hk]

/-- Parallel characterization of the two index builders: skipping the seed
and removing consumed ids globally (geom.rs) versus indexing everything and
filtering by the used set (geojson.rs). -/
lemma build_par :
    ∀ (L : List Line) (i0 : ℕ) (mg : MultiMap) (mj : List (Position × List ℕ)),
      1 ≤ i0 →
      (∀ k, mg.bucket k = (Geojson.bucket mj k).filter
        (fun i => decide (i ∉ ({0} : Finset ℕ)))) →
      (∀ k v, v ∈ Geojson.bucket mj k → v < i0) →
      ∀ k, (buildEndpointsAux L i0 mg).bucket k =
        (Geojson.bucket (Geojson.buildAux (L.map (fun l => l.pts)) i0 mj) k).filter
          (fun i => decide (i ∉ ({0} : Finset ℕ))) := by
  intro L
  induction L with
  | nil => intro i0 mg mj _ hrel _ k; exact hrel k
  | cons ls rest ih =>
    intro i0 mg mj hi0 hrel hbound k
    have hpi : (fun i => decide (i ∉ ({0} : Finset ℕ))) i0 = true := by
      simp
      omega
    have hgb : ∀ k', ∀ x ∈ mg.bucket k', x < i0 := by
      intro k' x hx
      rw [hrel k'] at hx
      exact hbound k' x (List.mem_of_mem_filter hx)
    have hrel' : ∀ k', ((mg.insert ls.start i0).insert ls.endPos i0).bucket k' =
        (Geojson.bucket
          (if ls.pts.headI ≠ ls.pts.getLastD default
           then Geojson.push (Geojson.push mj ls.pts.headI i0) (ls.pts.getLastD default) i0
           else Geojson.push mj ls.pts.headI i0) k').filter
          (fun i => decide (i ∉ ({0} : Finset ℕ))) := by
      intro k'
      have hsid : ls.pts.headI = ls.start := rfl
      have heid : ls.pts.getLastD default = ls.endPos := rfl
      rw [hsid, heid, bucket_insert]
      by_cases hse : ls.start ≠ ls.endPos
      · rw [if_pos hse, Geojson.bucket_push]
        by_cases h1 : k' = ls.endPos
        · rw [if_pos h1, if_pos h1]
          rw [bucket_insert, if_neg (show ¬(ls.endPos = ls.start) from fun hh => hse hh.symm)]
          rw [Geojson.bucket_push,
            if_neg (show ¬(ls.endPos = ls.start) from fun hh => hse hh.symm)]
          rw [bucketInsert_append_of_lt (hgb ls.endPos), hrel ls.endPos,
            List.filter_append]
          have hne0 : i0 ≠ 0 := by omega
          simp [hne0]
        · rw [if_neg h1, if_neg h1]
          rw [bucket_insert, Geojson.bucket_push]
          by_cases h2 : k' = ls.start
          · rw [if_pos h2, if_pos h2]
            rw [bucketInsert_append_of_lt (hgb ls.start), hrel ls.start,
              List.filter_append]
            have hne0 : i0 ≠ 0 := by omega
            simp [hne0]
          · rw [if_neg h2, if_neg h2]
            exact hrel k'
      · rw [if_neg hse, Geojson.bucket_push]
        have hse' : ls.start = ls.endPos := not_ne_iff.mp hse
        by_cases h1 : k' = ls.endPos
        · have h2 : k' = ls.start := by rw [hse']; exact h1
          rw [if_pos h1, if_pos h2]
          rw [bucket_insert, if_pos (show ls.endPos = ls.start from hse'.symm)]
          rw [bucketInsert_append_of_lt (hgb ls.start)]
          rw [bucketInsert_idem_of_lt ?hlt]
          case hlt =>
            intro x hx
            rw [hrel ls.start] at hx
            exact hbound ls.start x (List.mem_of_mem_filter hx)
          rw [hrel ls.start, List.filter_append]
          have hne0 : i0 ≠ 0 := by omega
          simp [hne0]
        · have h2 : ¬(k' = ls.start) := by
            rw [hse']
            exact h1
          rw [if_neg h1, if_neg h2]
          rw [bucket_insert, if_neg h2]
          exact hrel k'
    have hbound' : ∀ k' v, v ∈ Geojson.bucket
        (if ls.pts.headI ≠ ls.pts.getLastD default
         then Geojson.push (Geojson.push mj ls.pts.headI i0) (ls.pts.getLastD default) i0
         else Geojson.push mj ls.pts.headI i0) k' → v < i0 + 1 := by
      intro k' v hv
      by_cases hse : ls.pts.headI ≠ ls.pts.getLastD default
      · rw [if_pos hse] at hv
        rw [mem_bucket_push, mem_bucket_push] at hv
        rcases hv with (hv | ⟨-, rfl⟩) | ⟨-, rfl⟩
        · have := hbound k' v hv
          omega
        · omega
        · omega
      · rw [if_neg hse] at hv
        rw [mem_bucket_push] at hv
        rcases hv with hv | ⟨-, rfl⟩
        · have := hbound k' v hv
          omega
        · omega
    show (buildEndpointsAux rest (i0 + 1)
        ((mg.insert ls.start i0).insert ls.endPos i0)).bucket k = _
    exact ih (i0 + 1) ((mg.insert ls.start i0).insert ls.endPos i0) _
      (by omega) hrel' hbound' k

namespace Geojson

lemma loop_exit {lss : List (List Position)} {m : List (Position × List ℕ)}
    {line : List Position} {used : Finset ℕ} (h : lss.length ≤ used.card) :
    loop lss m line used =
      (if line.head? = line.getLast? then .ok line
       else .error "Ends of the linestrings don't form a ring") := by
  rw [loop]
  simp [h]

lemma loop_noBucket {lss : List (List Position)} {m : List (Position × List ℕ)}
    {line : List Position} {used : Finset ℕ} (h : ¬lss.length ≤ used.card)
    (hb : getBucket m (line.getLastD default) = none) :
    loop lss m line used = .error "No more matching linestrings found" := by
  rw [loop]
  simp only [List.getLastD_eq_getLast?] at hb
  simp [h, hb]


lemma loop_noCand {lss : List (List Position)} {m : List (Position × List ℕ)}
    {line : List Position} {used : Finset ℕ} {idxs : List ℕ}
    (h : ¬lss.length ≤ used.card)
    (hb : getBucket m (line.getLastD default) = some idxs)
    (hf : idxs.find? (fun i => decide (i ∉ used)) = none) :
    loop lss m line used = .error "No matching linestring found" := by
  rw [loop]
  simp only [List.getLastD_eq_getLast?] at hb
  simp only [decide_not] at hf
  simp [h, hb, hf, -List.find?_isSome]

lemma loop_step1 {lss : List (List Position)} {m : List (Position × List ℕ)}
    {line : List Position} {used : Finset ℕ} {idxs : List ℕ} {next : ℕ}
    (h : ¬lss.length ≤ used.card)
    (hb : getBucket m (line.getLastD default) = some idxs)
    (hf : idxs.find? (fun i => decide (i ∉ used)) = some next)
    (hc1 : line.getLastD default = (lss.getD next []).headI) :
    loop lss m line used =
      loop lss m (line ++ (lss.getD next []).drop 1) (insert next used) := by
  rw [loop]
  simp only [List.getLastD_eq_getLast?, List.getD_eq_getElem?_getD] at hb hc1 ⊢
  simp only [decide_not] at hf
  simp [h, hb, hf, -List.find?_isSome]
  intro hcon
  exact absurd hc1 hcon

lemma loop_step2 {lss : List (List Position)} {m : List (Position × List ℕ)}
    {line : List Position} {used : Finset ℕ} {idxs : List ℕ} {next : ℕ}
    (h : ¬lss.length ≤ used.card)
    (hb : getBucket m (line.getLastD default) = some idxs)
    (hf : idxs.find? (fun i => decide (i ∉ used)) = some next)
    (hc1 : ¬(line.getLastD default = (lss.getD next []).headI))
    (hc2 : line.getLastD default = (lss.getD next []).getLastD default) :
    loop lss m line used =
      loop lss m (line ++ (lss.getD next []).dropLast.reverse) (insert next used) := by
  rw [loop]
  simp only [List.getLastD_eq_getLast?, List.getD_eq_getElem?_getD] at hb hc1 hc2 ⊢
  simp only [decide_not] at hf
  simp [h, hb, hf, -List.find?_isSome]
  rw [if_neg hc1]
  first
  | rw [if_pos hc2]
  | rw [if_neg hc2]

lemma loop_stuck {lss : List (List Position)} {m : List (Position × List ℕ)}
    {line : List Position} {used : Finset ℕ} {idxs : List ℕ} {next : ℕ}
    (h : ¬lss.length ≤ used.card)
    (hb : getBucket m (line.getLastD default) = some idxs)
    (hf : idxs.find? (fun i => decide (i ∉ used)) = some next)
    (hc1 : ¬(line.getLastD default = (lss.getD next []).headI))
    (hc2 : ¬(line.getLastD default = (lss.getD next []).getLastD default)) :
    loop lss m line used = .error "Linestrings do not form a continuous path" := by
  rw [loop]
  simp only [List.getLastD_eq_getLast?, List.getD_eq_getElem?_getD] at hb hc1 hc2 ⊢
  simp only [decide_not] at hf
  simp [h, hb, hf, -List.find?_isSome]
  rw [if_neg hc1]
  first
  | rw [if_pos hc2]
  | rw [if_neg hc2]

lemma getBucket_none_bucket {m : List (Position × List ℕ)} {k : Position}
    (h : getBucket m k = none) : bucket m k = [] := by
  unfold bucket
  rw [h]
  rfl

lemma getBucket_some_bucket {m : List (Position × List ℕ)} {k : Position}
    {idxs : List ℕ} (h : getBucket m k = some idxs) : bucket m k = idxs := by
  unfold bucket
  rw [h]
  rfl

end Geojson

lemma line_head? (l : Line) : l.pts.head? = some l.start := by
  cases hp : l.pts with
  | nil =>
    have := l.two_le
    rw [hp] at this
    simp at this
  | cons x t =>
    show some x = some (l.pts.headI)
    rw [hp]
    rfl

lemma line_getLast? (l : Line) : l.pts.getLast? = some l.endPos := by
  cases hp : l.pts with
  | nil =>
    have := l.two_le
    rw [hp] at this
    simp at this
  | cons x t =>
    have hsome : (x :: t).getLast?.isSome := by
      rw [List.getLast?_isSome]
      simp
    obtain ⟨y, hy⟩ := Option.isSome_iff_exists.mp hsome
    rw [hy]
    show some y = some (l.pts.getLastD default)
    rw [hp, List.getLastD_eq_getLast?, hy]
    rfl

lemma filter_filter_insert (b : List ℕ) (used : Finset ℕ) (next : ℕ) :
    (b.filter (fun i => decide (i ∉ used))).filter (fun i => i != next) =
      b.filter (fun i => decide (i ∉ insert next used)) := by
  induction b with
  | nil => rfl
  | cons x t ih =>
    by_cases hu : x ∈ used
    · have h2 : x ∈ insert next used := Finset.mem_insert_of_mem hu
      rw [List.filter_cons_of_neg (by simpa using hu),
        List.filter_cons_of_neg
          (by simp only [Finset.mem_insert] at h2; simp; tauto)]
      exact ih
    · rw [List.filter_cons_of_pos (by simpa using hu)]
      by_cases hn : x = next
      · have h2 : x ∈ insert next used := by
          rw [hn]
          exact Finset.mem_insert_self _ _
        rw [List.filter_cons_of_neg (by simp [hn]),
          List.filter_cons_of_neg
            (by simp only [Finset.mem_insert] at h2; simp; tauto)]
        exact ih
      · have h2 : x ∉ insert next used := by
          rw [Finset.mem_insert]
          push_neg
          exact ⟨hn, hu⟩
        rw [List.filter_cons_of_pos (by simpa using hn),
          List.filter_cons_of_pos (by simpa using h2)]
        rw [ih]

lemma empty_iff_card {lss : List Line} {jm : List (Position × List ℕ)}
    {mm : MultiMap} {used : Finset ℕ}
    (hrange : ∀ k v, v ∈ Geojson.bucket jm k → v < lss.length)
    (hcover : ∀ v, v < lss.length → v ∈ Geojson.bucket jm ((lss.getD v default).start))
    (hk : KeysNodup mm)
    (hrel : ∀ k, mm.bucket k = (Geojson.bucket jm k).filter (fun i => decide (i ∉ used)))
    (hsub : used ⊆ Finset.range lss.length) :
    mm.is_empty = true ↔ lss.length ≤ used.card := by
  constructor
  · intro hempty
    have hnil := is_empty_buckets_nil hempty
    have hrsub : Finset.range lss.length ⊆ used := by
      intro v hv
      rw [Finset.mem_range] at hv
      by_contra hvu
      have hmem := hcover v hv
      have : v ∈ mm.bucket ((lss.getD v default).start) := by
        rw [hrel]
        rw [List.mem_filter]
        exact ⟨hmem, by simpa using hvu⟩
      rw [hnil] at this
      cases this
    have := Finset.card_le_card hrsub
    simpa using this
  · intro hcard
    have hused : used = Finset.range lss.length :=
      Finset.eq_of_subset_of_card_le hsub (by simpa using hcard)
    apply is_empty_true_of_buckets_nil hk
    intro k
    rw [hrel]
    rw [List.filter_eq_nil_iff]
    intro v hv
    have hlt := hrange k v hv
    have : v ∈ used := by
      rw [hused]
      exact Finset.mem_range.mpr hlt
    simp [this]

lemma loop_agree_exit {lss : List Line} {jm : List (Position × List ℕ)}
    {mm : MultiMap} {line : Line} {used : Finset ℕ}
    (hempty : mm.is_empty = true) (hcard : (lss.map (fun l => l.pts)).length ≤ used.card) :
    ((assembleLoop lss line mm).1.toOption.map (fun r => r.pts)) =
      (Geojson.loop (lss.map (fun l => l.pts)) jm line.pts used).toOption := by
  rw [assembleLoop_empty hempty, Geojson.loop_exit hcard]
  by_cases hcl : line.start = line.endPos
  · rw [if_pos hcl, if_pos (by rw [line_head?, line_getLast?, hcl])]
    rfl
  · rw [if_neg hcl, if_neg ?hne]
    · rfl
    case hne =>
      rw [line_head?, line_getLast?]
      intro hcon
      injection hcon with hcon
      exact hcl hcon

lemma loop_agree (lss : List Line) (jm : List (Position × List ℕ))
    (hrange : ∀ k v, v ∈ Geojson.bucket jm k → v < lss.length)
    (hcover : ∀ v, v < lss.length →
      v ∈ Geojson.bucket jm ((lss.getD v default).start)) :
    ∀ (fuel : ℕ) (mm : MultiMap) (line : Line) (used : Finset ℕ),
      mm.totalCount ≤ fuel →
      KeysNodup mm →
      (∀ k, mm.bucket k = (Geojson.bucket jm k).filter (fun i => decide (i ∉ used))) →
      used ⊆ Finset.range lss.length →
      ((assembleLoop lss line mm).1.toOption.map (fun r => r.pts)) =
        (Geojson.loop (lss.map (fun l => l.pts)) jm line.pts used).toOption := by
  intro fuel
  induction fuel with
  | zero =>
    intro mm line used hfc hk hrel hsub
    have hempty : mm.is_empty = true := by
      cases he : mm.is_empty with
      | true => rfl
      | false =>
        have := totalCount_pos_of_not_empty he
        omega
    have hcard : lss.length ≤ used.card :=
      (empty_iff_card hrange hcover hk hrel hsub).mp hempty
    exact loop_agree_exit hempty (by simpa using hcard)
  | succ n ih =>
    intro mm line used hfc hk hrel hsub
    cases hempty : mm.is_empty with
    | true =>
      have hcard : lss.length ≤ used.card :=
        (empty_iff_card hrange hcover hk hrel hsub).mp hempty
      exact loop_agree_exit hempty (by simpa using hcard)
    | false =>
      have hcardlt : ¬(lss.map (fun l => l.pts)).length ≤ used.card := by
        rw [List.length_map]
        intro hcon
        rw [(empty_iff_card hrange hcover hk hrel hsub).mpr hcon] at hempty
        cases hempty
      cases hjb : Geojson.getBucket jm line.endPos with
      | none =>
        have hjbJ : Geojson.getBucket jm (line.pts.getLastD default) = none := hjb
        have hbj : Geojson.bucket jm line.endPos = [] :=
          Geojson.getBucket_none_bucket hjb
        have hmb : mm.bucket line.endPos = [] := by
          rw [hrel, hbj]
          rfl
        have hcf : (mm.consume_one line.endPos).1 = none := by
          rw [consume_fst_eq_get, get_eq_bucket_head, hmb]
          rfl
        rw [assembleLoop_none hempty hcf, Geojson.loop_noBucket hcardlt hjbJ]
        rfl
      | some idxs =>
        have hjbJ : Geojson.getBucket jm (line.pts.getLastD default) = some idxs := hjb
        have hbj : Geojson.bucket jm line.endPos = idxs :=
          Geojson.getBucket_some_bucket hjb
        have hmb : mm.bucket line.endPos = idxs.filter (fun i => decide (i ∉ used)) := by
          rw [hrel, hbj]
        cases hcand : (idxs.filter (fun i => decide (i ∉ used))).head? with
        | none =>
          have hcf : (mm.consume_one line.endPos).1 = none := by
            rw [consume_fst_eq_get, get_eq_bucket_head, hmb, hcand]
          have hfind : idxs.find? (fun i => decide (i ∉ used)) = none := by
            rw [find?_eq_head?_filter, hcand]
          rw [assembleLoop_none hempty hcf, Geojson.loop_noCand hcardlt hjbJ hfind]
          rfl
        | some nxt =>
          have hget : mm.get line.endPos = some nxt := by
            rw [get_eq_bucket_head, hmb, hcand]
          have hpair := consume_pair_of_get_some hget
          have hcf : (mm.consume_one line.endPos).1 = some nxt := by
            rw [hpair]
          have hfind : idxs.find? (fun i => decide (i ∉ used)) = some nxt := by
            rw [find?_eq_head?_filter, hcand]
          have hmemJ : nxt ∈ idxs := List.mem_of_find?_eq_some hfind
          have hlt : nxt < lss.length := hrange _ nxt (hbj ▸ hmemJ)
          have hgetD : (lss.map (fun l => l.pts)).getD nxt [] =
              (lss.getD nxt default).pts := by
            rw [List.getD_eq_getElem?_getD, List.getD_eq_getElem?_getD,
              List.getElem?_map, List.getElem?_eq_getElem hlt]
            rfl
          have hrel' : ∀ k, ((mm.consume_one line.endPos).2).bucket k =
              (Geojson.bucket jm k).filter (fun i => decide (i ∉ insert nxt used)) := by
            intro k
            have h1 : ((mm.consume_one line.endPos).2).bucket k =
                (mm.bucket k).filter (fun v => v != nxt) := by
              rw [hpair]
              exact bucket_consume_some hpair k
            rw [h1, hrel, filter_filter_insert]
          have hk' : KeysNodup ((mm.consume_one line.endPos).2) :=
            keysNodup_consume hk line.endPos
          have hsub' : insert nxt used ⊆ Finset.range lss.length :=
            Finset.insert_subset (Finset.mem_range.mpr hlt) hsub
          have hfc' : ((mm.consume_one line.endPos).2).totalCount ≤ n := by
            have h2 : ((mm.consume_one line.endPos).2).totalCount < mm.totalCount := by
              rw [hpair]
              exact totalCount_lt_of_consume hpair
            omega
          by_cases hc1 : (lss.getD nxt default).start = line.endPos
          · have he : line.extend (lss.getD nxt default) =
                .ok ⟨line.pts ++ (lss.getD nxt default).pts.drop 1, by
                  have h := line.two_le
                  simp only [List.length_append]
                  omega⟩ := by
              unfold Line.extend
              rw [if_pos hc1]
            have hc1j : line.pts.getLastD default =
                ((lss.map (fun l => l.pts)).getD nxt []).headI := by
              rw [hgetD]
              exact hc1.symm
            rw [assembleLoop_extend_ok hempty hcf he,
              Geojson.loop_step1 hcardlt hjbJ hfind hc1j, hgetD]
            exact ih _ _ _ hfc' hk' hrel' hsub'
          · by_cases hc2 : (lss.getD nxt default).endPos = line.endPos
            · have he : line.extend (lss.getD nxt default) =
                  .ok ⟨line.pts ++ (lss.getD nxt default).pts.reverse.drop 1, by
                    have h := line.two_le
                    simp only [List.length_append]
                    omega⟩ := by
                unfold Line.extend
                rw [if_neg hc1, if_pos hc2]
              have hc1j : ¬(line.pts.getLastD default =
                  ((lss.map (fun l => l.pts)).getD nxt []).headI) := by
                rw [hgetD]
                intro hcon
                exact hc1 hcon.symm
              have hc2j : line.pts.getLastD default =
                  ((lss.map (fun l => l.pts)).getD nxt []).getLastD default := by
                rw [hgetD]
                exact hc2.symm
              rw [assembleLoop_extend_ok hempty hcf he,
                Geojson.loop_step2 hcardlt hjbJ hfind hc1j hc2j, hgetD,
                ← reverse_drop_one]
              exact ih _ _ _ hfc' hk' hrel' hsub'
            · have he : line.extend (lss.getD nxt default) =
                  .error .nonContinuousPath := by
                unfold Line.extend
                rw [if_neg hc1, if_neg hc2]
              have hc1j : ¬(line.pts.getLastD default =
                  ((lss.map (fun l => l.pts)).getD nxt []).headI) := by
                rw [hgetD]
                intro hcon
                exact hc1 hcon.symm
              have hc2j : ¬(line.pts.getLastD default =
                  ((lss.map (fun l => l.pts)).getD nxt []).getLastD default) := by
                rw [hgetD]
                intro hcon
                exact hc2 hcon.symm
              rw [assembleLoop_extend_error hempty hcf he,
                Geojson.loop_stuck hcardlt hjbJ hfind hc1j hc2j]
              rfl

lemma bucket_nil (k : Position) : Geojson.bucket [] k = [] := rfl

lemma map_pts_getD {lss : List Line} {v : ℕ} (hlt : v < lss.length) :
    (lss.map (fun l => l.pts)).getD v [] = (lss.getD v default).pts := by
  rw [List.getD_eq_getElem?_getD, List.getD_eq_getElem?_getD, List.getElem?_map,
    List.getElem?_eq_getElem hlt]
  rfl

/-- C10: on every non-empty list of linestrings of length at least 2, the
assembler of `geom.rs` (seed omitted from the index, consumed ids removed
globally) and the older assembler of `geojson.rs` (everything indexed,
used ids skipped) agree: both fail, or both return the same position
sequence. -/
theorem claim_C10 (lss : List Line) (h : lss ≠ []) :
    (create_continuous_linering lss).toOption.map (fun r => r.pts) =
      (Geojson.create_continuous_linering (lss.map (fun l => l.pts))).toOption := by
  obtain ⟨first, rest, rfl⟩ := List.exists_cons_of_ne_nil h
  have hguard : (((first :: rest).map (fun l => l.pts)).isEmpty ||
      ((first :: rest).map (fun l => l.pts)).any (fun ls => decide (ls.length < 2)))
      = false := by
    simp only [Bool.or_eq_false_iff]
    constructor
    · rfl
    · rw [List.any_eq_false]
      intro x hx
      rw [List.mem_map] at hx
      obtain ⟨l, _, rfl⟩ := hx
      have := l.two_le
      simp only [decide_eq_true_eq]
      omega
  have hJ : Geojson.create_continuous_linering ((first :: rest).map (fun l => l.pts)) =
      Geojson.loop ((first :: rest).map (fun l => l.pts))
        (Geojson.build ((first :: rest).map (fun l => l.pts))) first.pts {0} := by
    unfold Geojson.create_continuous_linering
    rw [hguard]
    rfl
  rw [hJ]
  refine loop_agree (first :: rest)
    (Geojson.build ((first :: rest).map (fun l => l.pts))) ?hrange ?hcover
    ((buildEndpoints (first :: rest)).totalCount) (buildEndpoints (first :: rest))
    first {0} le_rfl (keysNodup_buildEndpoints _) ?hrel ?hsub
  case hrange =>
    intro k v hv
    have := (Geojson.mem_bucket_build _ _ _).mp hv
    simpa using this.1
  case hcover =>
    intro v hv
    apply (Geojson.mem_bucket_build _ _ _).mpr
    refine ⟨by simpa using hv, Or.inl ?_⟩
    rw [map_pts_getD hv]
    rfl
  case hrel =>
    intro k
    show (buildEndpointsAux rest 1 default).bucket k =
      (Geojson.bucket (Geojson.buildAux (rest.map (fun l => l.pts)) 1
        (if first.pts.headI ≠ first.pts.getLastD default
         then Geojson.push (Geojson.push [] first.pts.headI 0)
           (first.pts.getLastD default) 0
         else Geojson.push [] first.pts.headI 0)) k).filter
        (fun i => decide (i ∉ ({0} : Finset ℕ)))
    have hmem0 : ∀ (k' : Position) (v : ℕ),
        v ∈ Geojson.bucket
          (if first.pts.headI ≠ first.pts.getLastD default
           then Geojson.push (Geojson.push [] first.pts.headI 0)
             (first.pts.getLastD default) 0
           else Geojson.push [] first.pts.headI 0) k' → v = 0 := by
      intro k' v hv
      by_cases hse : first.pts.headI ≠ first.pts.getLastD default
      · rw [if_pos hse] at hv
        rcases mem_bucket_push.mp hv with hv' | ⟨-, rfl⟩
        · rcases mem_bucket_push.mp hv' with hv'' | ⟨-, rfl⟩
          · rw [bucket_nil] at hv''
            cases hv''
          · rfl
        · rfl
      · rw [if_neg hse] at hv
        rcases mem_bucket_push.mp hv with hv' | ⟨-, rfl⟩
        · rw [bucket_nil] at hv'
          cases hv'
        · rfl
    refine build_par rest 1 default _ le_rfl ?_ ?_ k
    · intro k'
      rw [bucket_default]
      symm
      rw [List.filter_eq_nil_iff]
      intro v hv
      have hv0 := hmem0 k' v hv
      subst hv0
      simp
    · intro k' v hv
      have hv0 := hmem0 k' v hv
      omega
  case hsub =>
    intro x hx
    rw [Finset.mem_singleton] at hx
    subst hx
    simp

theorem claim_C10_witness :
    [wLine1, wLine2] ≠ ([] : List Line) ∧
    ((create_continuous_linering [wLine1, wLine2]).toOption.map (fun r => r.pts) =
      (Geojson.create_continuous_linering
        ([wLine1, wLine2].map (fun l => l.pts))).toOption) :=
  ⟨by simp, claim_C10 [wLine1, wLine2] (by simp)⟩

/-! ### The decoded OSM data model consumed by `geom.rs` (`osmpbfreader`
types, restricted to the fields the code reads), and the orchestration
layer `to_coords` / `as_polygon` / `to_feature` / `write`. -/

/-- `osmpbfreader::Node`: fixed-precision coordinates scaled by `10^7`. -/
structure Node where
  id : ℤ
  tags : List (String × String)
  decimicro_lat : ℤ
  decimicro_lon : ℤ
deriving Repr, DecidableEq, Inhabited

/-- `osmpbfreader::Way`: an ordered list of node identifiers. -/
structure Way where
  id : ℤ
  tags : List (String × String)
  nodes : List ℤ
deriving Repr, DecidableEq, Inhabited

/-- `osmpbfreader::OsmId`: a typed object identifier. -/
inductive OsmId where
  | node (id : ℤ)
  | way (id : ℤ)
  | relation (id : ℤ)
deriving Repr, DecidableEq, Inhabited

/-- `osmpbfreader::Ref`: a relation member reference with its role. -/
structure Ref where
  member : OsmId
  role : String
deriving Repr, DecidableEq, Inhabited

/-- `osmpbfreader::Relation`. -/
structure Relation where
  id : ℤ
  tags : List (String × String)
  refs : List Ref
deriving Repr, DecidableEq, Inhabited

/-- `osmpbfreader::OsmObj`. -/
inductive OsmObj where
  | node (n : Node)
  | way (w : Way)
  | relation (r : Relation)
deriving Repr, DecidableEq, Inhabited

def OsmObj.tags : OsmObj → List (String × String)
  | .node n => n.tags
  | .way w => w.tags
  | .relation r => r.tags

/-- `OsmObj::node`. -/
def OsmObj.node? : OsmObj → Option Node
  | .node n => some n
  | _ => none

/-- `OsmObj::way`. -/
def OsmObj.way? : OsmObj → Option Way
  | .way w => some w
  | _ => none

/-- `OsmObj::relation`. -/
def OsmObj.relation? : OsmObj → Option Relation
  | .relation r => some r
  | _ => none

/-- `OsmObj::is_relation`. -/
def OsmObj.isRelation : OsmObj → Bool
  | .relation _ => true
  | _ => false

/-- `BTreeMap<OsmId, OsmObj>` modelled as an association list in key
order; `BTreeMap::get`. -/
def dsGet (objs : List (OsmId × OsmObj)) (k : OsmId) : Option OsmObj :=
  (objs.find? (fun kv => kv.1 == k)).map Prod.snd

/-- `Tags::get` (`osmpbfreader` tags are a string map). -/
def tagsGet (tags : List (String × String)) (k : String) : Option String :=
  (tags.find? (fun kv => kv.1 == k)).map Prod.snd

/-- `filter::by_target` from `filter.rs`. -/
def by_target (obj : OsmObj) : Bool :=
  obj.isRelation &&
  (tagsGet obj.tags "name").isSome &&
  ((tagsGet obj.tags "type").map (fun v => v == "boundary")).getD false &&
  ((tagsGet obj.tags "boundary").map (fun v => v == "administrative")).getD false &&
  (tagsGet obj.tags "de:regionalschluessel").isSome &&
  ((tagsGet obj.tags "admin_level").map
    (fun v => v == "2" || v == "4" || v == "6" || v == "7" || v == "8")).getD false

/-- The closure `to_coords` of `as_polygon`: resolve each node id of a way
to a position, failing (for the whole way) on the first id whose node is
absent; `collect::<Option<Vec<_>>>` over `map` is left-to-right. -/
def to_coords (all_objs : List (OsmId × OsmObj)) : List ℤ → Option (List Position)
  | [] => some []
  | node_id :: rest =>
    match (dsGet all_objs (OsmId.node node_id)).bind OsmObj.node? with
    | none => none
    | some n =>
      match to_coords all_objs rest with
      | none => none
      | some ps =>
        some (Position.mk ((n.decimicro_lon : ℚ) / 10000000)
          ((n.decimicro_lat : ℚ) / 10000000) :: ps)

/-- `Line::try_from(Vec<Position>)`: fails on fewer than 2 points. -/
def lineTryFrom (xs : List Position) : Option Line :=
  if h : 2 ≤ xs.length then some ⟨xs, h⟩ else none

/-- The error kinds of `to_feature` / `as_polygon` (`anyhow` string errors
in the source, distinguished here by their message). -/
inductive FeatureError where
  | nameMissing
  | adminLevelMissing
  | arsMissing
  | adminLevelParse
  | relationMissing
  | geom (e : GeomError)
deriving Repr, DecidableEq

/-- `as_polygon` from `geom.rs`: members that are not `outer`, members
whose way or node lookup fails, and members with fewer than 2 positions
are dropped by the two `filter_map`s; the survivors are assembled and the
ring is reversed when clockwise. -/
def as_polygon (all_objs : List (OsmId × OsmObj)) (obj : OsmObj) :
    Except FeatureError (List (List Position)) :=
  match obj.relation? with
  | none => .error .relationMissing
  | some rel =>
    let linestrings : List Line :=
      (rel.refs.filterMap (fun child =>
        if child.role = "outer" then
          (dsGet all_objs child.member).bind
            (fun o => o.way?.bind (fun w => to_coords all_objs w.nodes))
        else none)).filterMap lineTryFrom
    match create_continuous_linering linestrings with
    | .error e => .error (.geom e)
    | .ok linering =>
      .ok [if is_clockwise linering then linering.pts.reverse else linering.pts]

/-- `u8::from_str`: an optional sign then digits, value below 256. -/
def parse_u8 (s : String) : Option ℕ :=
  match (if s.startsWith "+" then s.drop 1 else s).toNat? with
  | some n => if n < 256 then some n else none
  | none => none

/-- The feature emitted per area (the fields `to_feature` populates). -/
structure Feature where
  id : ℤ
  name : String
  adminLevel : ℕ
  ars : String
  geometry : List (List Position)
deriving Repr, DecidableEq

/-- `to_feature` from `geom.rs`: tag extraction in source order (`name`,
optional `name:prefix` concatenation, `admin_level`, ars key, `u8` parse),
then geometry via `as_polygon`, then the relation id. -/
def to_feature (all_objs : List (OsmId × OsmObj)) (obj : OsmObj) :
    Except FeatureError Feature :=
  match tagsGet obj.tags "name" with
  | none => .error .nameMissing
  | some n =>
    let name := match tagsGet obj.tags "name:prefix" with
      | some p => p ++ " " ++ n
      | none => n
    match tagsGet obj.tags "admin_level" with
    | none => .error .adminLevelMissing
    | some al =>
      match tagsGet obj.tags "de:regionalschluessel" with
      | none => .error .arsMissing
      | some ars =>
        match parse_u8 al with
        | none => .error .adminLevelParse
        | some lvl =>
          match as_polygon all_objs obj with
          | .error e => .error e
          | .ok geom =>
            match obj.relation? with
            | none => .error .relationMissing
            | some rel => .ok ⟨rel.id, name, lvl, ars, geom⟩

/-- `write` from `geom.rs`: iterate the dataset's values, keep the targets
of `filter::by_target`, emit a feature per successful conversion and log
(`error!`) the failure otherwise, then return `Ok`.  The in-memory sink
cannot fail, so the fallible `io::Write` surface is collapsed to the pair
(features written, errors logged). -/
def write (objs : List (OsmId × OsmObj)) :
    Except String (List Feature × List FeatureError) :=
  .ok (objs.foldl (fun acc kv =>
    if by_target kv.2 then
      match to_feature objs kv.2 with
      | .ok f => (acc.1 ++ [f], acc.2)
      | .error e => (acc.1, acc.2 ++ [e])
    else acc) ([], []))

lemma write_foldl (objs : List (OsmId × OsmObj)) :
    ∀ (L : List (OsmId × OsmObj)) (acc : List Feature × List FeatureError),
      L.foldl (fun acc kv =>
        if by_target kv.2 then
          match to_feature objs kv.2 with
          | .ok f => (acc.1 ++ [f], acc.2)
          | .error e => (acc.1, acc.2 ++ [e])
        else acc) acc =
      (acc.1 ++ (L.filter (fun kv => by_target kv.2)).filterMap
          (fun kv => (to_feature objs kv.2).toOption),
       acc.2 ++ (L.filter (fun kv => by_target kv.2)).filterMap
          (fun kv => match to_feature objs kv.2 with
            | .ok _ => none
            | .error e => some e)) := by
  intro L
  induction L with
  | nil =>
    intro acc
    simp
  | cons kv rest ih =>
    intro acc
    rw [List.foldl_cons]
    by_cases hb : by_target kv.2 = true
    · rw [if_pos hb]
      cases hto : to_feature objs kv.2 with
      | ok f =>
        rw [ih]
        simp [List.filter_cons, hb, hto]
        rw [List.filterMap_cons]
        simp [hto, Except.toOption]
      | error e =>
        rw [ih]
        simp [List.filter_cons, hb, hto]
        rw [List.filterMap_cons]
        simp [hto, Except.toOption]
    · rw [if_neg hb, ih]
      simp [List.filter_cons, hb]

/-- C7: partial-failure isolation of `write`: every object passing the
target filter is converted independently; each conversion failure is
logged and every other area is still processed, and `write` returns `Ok`
carrying exactly the features of the successful areas and the errors of
the failed ones. -/
theorem claim_C7 (objs : List (OsmId × OsmObj)) :
    write objs = .ok
      ((objs.filter (fun kv => by_target kv.2)).filterMap
         (fun kv => (to_feature objs kv.2).toOption),
       (objs.filter (fun kv => by_target kv.2)).filterMap
         (fun kv => match to_feature objs kv.2 with
           | .ok _ => none
           | .error e => some e)) := by
  unfold write
  rw [write_foldl objs objs ([], [])]
  simp

/-! ### C1: a concrete dataset on which `as_polygon` silently drops
unresolvable and degenerate outer members. -/

def c1Node1 : Node := ⟨1, [], 0, 0⟩

def c1Node2 : Node := ⟨2, [], 0, 10000000⟩

def c1Way10 : Way := ⟨10, [], [1, 2, 1]⟩

def c1Way12 : Way := ⟨12, [], [1]⟩

def c1Rel : Relation :=
  ⟨100, [("name", "X")],
   [⟨.way 10, "outer"⟩, ⟨.way 11, "outer"⟩, ⟨.way 12, "outer"⟩]⟩

def c1Objs : List (OsmId × OsmObj) :=
  [(.node 1, .node c1Node1), (.node 2, .node c1Node2),
   (.way 10, .way c1Way10), (.way 12, .way c1Way12),
   (.relation 100, .relation c1Rel)]

def c1P1 : Position := ⟨0, 0⟩

def c1P2 : Position := ⟨1, 0⟩

def c1Line : Line := ⟨[c1P1, c1P2, c1P1], by simp⟩

/-- C1 fails on the code: in `as_polygon` the two `filter_map`s silently
drop an outer member whose way is absent from the dataset (way 11) and an
outer member resolving to fewer than 2 positions (way 12), and the area
converts successfully from the remaining member alone instead of failing
with `UnresolvedMember` / `DegenerateSegment`. -/
theorem claim_C1 :
    ((⟨.way 11, "outer"⟩ : Ref) ∈ c1Rel.refs ∧ dsGet c1Objs (.way 11) = none) ∧
    ((⟨.way 12, "outer"⟩ : Ref) ∈ c1Rel.refs ∧
      (dsGet c1Objs (.way 12)).bind OsmObj.way? = some c1Way12 ∧
      to_coords c1Objs c1Way12.nodes = some [c1P1] ∧ [c1P1].length < 2) ∧
    as_polygon c1Objs (.relation c1Rel) = .ok [[c1P1, c1P2, c1P1]] := by
  have hgn1 : dsGet c1Objs (OsmId.node 1) = some (OsmObj.node c1Node1) := rfl
  have hgn2 : dsGet c1Objs (OsmId.node 2) = some (OsmObj.node c1Node2) := rfl
  have hga : dsGet c1Objs (OsmId.way 10) = some (OsmObj.way c1Way10) := rfl
  have hgb : dsGet c1Objs (OsmId.way 11) = none := rfl
  have hgc : dsGet c1Objs (OsmId.way 12) = some (OsmObj.way c1Way12) := rfl
  have h12 : to_coords c1Objs [1] = some [c1P1] := by
    norm_num [to_coords, hgn1, OsmObj.node?, c1Node1, c1P1]
  have h10 : to_coords c1Objs [1, 2, 1] = some [c1P1, c1P2, c1P1] := by
    norm_num [to_coords, hgn1, hgn2, OsmObj.node?, c1Node1, c1Node2, c1P1, c1P2]
  refine ⟨⟨by decide, hgb⟩, ⟨by decide, by rw [hgc]; rfl, h12, by decide⟩, ?_⟩
  have hfm : c1Rel.refs.filterMap (fun child =>
      if child.role = "outer" then
        (dsGet c1Objs child.member).bind
          (fun o => o.way?.bind (fun w => to_coords c1Objs w.nodes))
      else none) = [[c1P1, c1P2, c1P1], [c1P1]] := by
    show List.filterMap _ ([⟨.way 10, "outer"⟩, ⟨.way 11, "outer"⟩,
      ⟨.way 12, "outer"⟩] : List Ref) = _
    rw [List.filterMap_cons, List.filterMap_cons, List.filterMap_cons,
      List.filterMap_nil]
    norm_num [hga, hgb, hgc, OsmObj.way?, c1Way10, c1Way12, h10, h12]
  have hls : List.filterMap lineTryFrom [[c1P1, c1P2, c1P1], [c1P1]] =
      [c1Line] := by
    rw [List.filterMap_cons, List.filterMap_cons, List.filterMap_nil]
    norm_num [lineTryFrom, c1Line]
  have hmm : (buildEndpoints [c1Line]).is_empty = true := rfl
  have hloop := @assembleLoop_empty [c1Line] c1Line (buildEndpoints [c1Line]) hmm
  rw [if_pos (show c1Line.start = c1Line.endPos from rfl)] at hloop
  have hassemble : create_continuous_linering [c1Line] = .ok c1Line := by
    show (assembleLoop [c1Line] c1Line (buildEndpoints [c1Line])).1 = _
    rw [hloop]
  have hcw : is_clockwise c1Line = false := by
    norm_num [is_clockwise, shoelaceTerms, c1Line, c1P1, c1P2]
  show as_polygon c1Objs (OsmObj.relation c1Rel) = _
  unfold as_polygon
  show (match create_continuous_linering
      ((c1Rel.refs.filterMap (fun child =>
        if child.role = "outer" then
          (dsGet c1Objs child.member).bind
            (fun o => o.way?.bind (fun w => to_coords c1Objs w.nodes))
        else none)).filterMap lineTryFrom) with
    | .error e => Except.error (FeatureError.geom e)
    | .ok linering =>
      .ok [if is_clockwise linering then linering.pts.reverse
           else linering.pts]) = _
  rw [hfm, hls, hassemble]
  rw [show (match Except.ok c1Line with
    | .error e => Except.error (FeatureError.geom e)
    | .ok linering =>
      Except.ok [if is_clockwise linering then linering.pts.reverse
           else linering.pts]) =
      Except.ok [if is_clockwise c1Line then c1Line.pts.reverse
        else c1Line.pts] from rfl]
  rw [hcw]
  rfl

theorem claim_C7_witness :
    write c1Objs = .ok
      ((c1Objs.filter (fun kv => by_target kv.2)).filterMap
         (fun kv => (to_feature c1Objs kv.2).toOption),
       (c1Objs.filter (fun kv => by_target kv.2)).filterMap
         (fun kv => match to_feature c1Objs kv.2 with
           | .ok _ => none
           | .error e => some e)) :=
  claim_C7 c1Objs
